import Mathlib

/-!
Verification development for the `hier_config` repository (`hier_config/__init__.py`).

The tree-node primitive (`HConfigBase` in `hier_config/base.py`) is not part of the
given sources; following the specification (§2, §3, §6, §9) it is modelled as an
inductive tree of nodes, where a node is identified by its path (the list of child
indices from the root).  All algorithms of `hier_config/__init__.py` that the claims
mention are translated directly from that source.

Python string conventions (splitlines, split, strip, substring membership) are
modelled over `List Char`; option regexes (`re.sub` / `re.search` payloads) are
modelled as opaque `String → String` rewrites and `String → Bool` predicates, since
the regex engine is an external library from the point of view of the repository.
-/

namespace HierCfg

/-! ## Python-style string helpers -/

/-- Whitespace characters recognised by the model (Python `str.split` / `strip`
also cover form feeds and vertical tabs; the configuration texts of the claims
only contain spaces and tabs). -/
def isPySpace (c : Char) : Bool := c = ' ' || c = '\t' || c = '\r'

/-- Number of leading whitespace characters: Python `len(line) - len(line.lstrip())`. -/
def leadingWS (s : String) : Nat := (s.toList.takeWhile isPySpace).length

/-- Python `line.lstrip()`. -/
def pyLstrip (s : String) : String := String.mk (s.toList.dropWhile isPySpace)

/-- Python `line.rstrip()`. -/
def pyRstrip (s : String) : String :=
  String.mk (s.toList.reverse.dropWhile isPySpace).reverse

/-- Split a character list into maximal whitespace-free words (Python `str.split()`
with no argument: leading, trailing and repeated separators produce no empty words). -/
def wordsAux : List Char → List Char → List (List Char)
  | [], acc => if acc.isEmpty then [] else [acc.reverse]
  | c :: cs, acc =>
    if isPySpace c then
      if acc.isEmpty then wordsAux cs [] else acc.reverse :: wordsAux cs []
    else wordsAux cs (c :: acc)

/-- Python `line.split()`. -/
def pyWords (s : String) : List String := (wordsAux s.toList []).map String.mk

/-- Python `' '.join(words)`. -/
def joinSpace (ws : List String) : String :=
  String.mk (((ws.map String.toList).intersperse [' ']).flatten)

/-- Python `'\n'.join(lines)`. -/
def joinNL (ws : List String) : String :=
  String.mk (((ws.map String.toList).intersperse ['\n']).flatten)

/-- A run of `n` spaces, Python `' ' * n`. -/
def spaces (n : Nat) : String := String.mk (List.replicate n ' ')

/-- Split on newline characters. -/
def splitNLAux : List Char → List Char → List (List Char)
  | [], acc => [acc.reverse]
  | c :: cs, acc => if c = '\n' then acc.reverse :: splitNLAux cs [] else splitNLAux cs (c :: acc)

/-- Python `text.splitlines()` restricted to `'\n'` terminators: like splitting on
`'\n'` except that a trailing terminator does not produce a final empty line and
the empty text has no lines. -/
def pySplitlines (s : String) : List String :=
  let parts := splitNLAux s.toList []
  let parts := if parts.getLast? = some [] then parts.dropLast else parts
  parts.map String.mk

/-- Python `sub in s` (substring membership). -/
def strContains (sub s : String) : Bool :=
  (List.range (s.toList.length + 1)).any
    (fun i => ((s.toList.drop i).take sub.toList.length) = sub.toList)

/-- Python `s.startswith(p)`. -/
def pyStartsWith (p s : String) : Bool := (s.toList.take p.toList.length) = p.toList

/-- Python `s[:n]` for a nonnegative `n`. -/
def pyTake (n : Nat) (s : String) : String := String.mk (s.toList.take n)

/-! ## The tree of configuration nodes

Modelled from the spec: the external tree-node primitive (§2, §3, §6).  A node
carries the payload fields of §3; a tree is a node together with its ordered
children; the root is a distinguished node whose payload is never a config line.
A node is identified by its path of child indices from the root (§9 suggests an
arena with stable identities; paths are the functional equivalent while nodes
are only appended or removed below the point of mutation). -/

structure NodeData where
  text : String
  tags : List String
  comments : List String
  new_in_config : Bool
  order_weight : Nat
  real_indent_level : Int
deriving DecidableEq, Repr

inductive HC where
  | mk (data : NodeData) (children : List HC)

abbrev Path := List Nat

def HC.data : HC → NodeData
  | .mk d _ => d

def HC.children : HC → List HC
  | .mk _ cs => cs

/-- Default payload of a freshly created child (spec §3: default order weight 500). -/
def defaultData (text : String) : NodeData :=
  { text := text, tags := [], comments := [], new_in_config := false,
    order_weight := 500, real_indent_level := 0 }

/-- An empty root node (the tree handle, spec §3). -/
def emptyRoot : HC := .mk (defaultData "") []

/-- Look up the node at a path. -/
def getNode? : HC → Path → Option HC
  | t, [] => some t
  | t, i :: rest =>
    match t.children.get? i with
    | some c => getNode? c rest
    | none => none

def validPath (t : HC) (p : Path) : Bool := (getNode? t p).isSome

def dataAt? (t : HC) (p : Path) : Option NodeData := (getNode? t p).map HC.data

def textAt (t : HC) (p : Path) : String := ((getNode? t p).map (fun n => n.data.text)).getD ""

def weightAt (t : HC) (p : Path) : Nat :=
  ((getNode? t p).map (fun n => n.data.order_weight)).getD 0

def indentAt (t : HC) (p : Path) : Int :=
  ((getNode? t p).map (fun n => n.data.real_indent_level)).getD 0

def childCount (t : HC) (p : Path) : Nat :=
  ((getNode? t p).map (fun n => n.children.length)).getD 0

/-- Replace the element at one index of a list, leaving other positions alone. -/
def modifyIdx (f : α → α) : Nat → List α → List α
  | _, [] => []
  | 0, a :: as => f a :: as
  | n + 1, a :: as => a :: modifyIdx f n as

/-- Apply `f` to the node at path `p` (no-op on an absent path). -/
def modifyAt : HC → Path → (HC → HC) → HC
  | t, [], f => f t
  | .mk d cs, i :: rest, f => .mk d (modifyIdx (fun c => modifyAt c rest f) i cs)

/-- Append a child under the node at `p` (the node primitive's create-child with
`force_duplicate`, which always appends). -/
def addChildAt (t : HC) (p : Path) (n : HC) : HC :=
  modifyAt t p (fun node => .mk node.data (node.children ++ [n]))

/-- Path of the child that `addChildAt t p _` creates. -/
def newChildPath (t : HC) (p : Path) : Path := p ++ [childCount t p]

/-! ## Options (§3): the five-key bundle

Each collection is wrapped in `Option` to model presence or absence of the key in
the dictionary (`self.options[key]` raises `KeyError` on an absent key).  The
`re.sub` payload of a substitution record is modelled as an opaque rewrite
`String → String`, and the `re.search` payload of an indent-adjust expression as
an opaque predicate `String → Bool`. -/

structure SubRule where
  sub : String → String

structure IndentRule where
  start_expression : String → Bool
  end_expression : String → Bool

/-- Modelled from the spec: one per-level match specifier of a lineage rule
(§3: match kind ∈ {equals, startswith, endswith, contains, regex}, possibly
negated); the regex kind carries its compiled predicate. -/
inductive MatchSpec where
  | equals (s : String)
  | startswith (s : String)
  | endswith (s : String)
  | contains (s : String)
  | regex (p : String → Bool)

structure LevelSpec where
  spec : MatchSpec
  negated : Bool

abbrev LineageRule := List LevelSpec

structure OrderRule where
  lineage : LineageRule
  order : Nat

structure ExitRule where
  lineage : LineageRule
  exit_text : String

structure Options where
  full_text_sub : Option (List SubRule)
  per_line_sub : Option (List SubRule)
  indent_adjust : Option (List IndentRule)
  ordering : Option (List OrderRule)
  sectional_exiting : Option (List ExitRule)

/-- The options bundle with all five keys present and empty. -/
def emptyOptions : Options :=
  { full_text_sub := some [], per_line_sub := some [], indent_adjust := some [],
    ordering := some [], sectional_exiting := some [] }

/-! ## The parser: `HConfig.load_from_string` -/

inductive ParseErr where
  | missingKey (k : String)
  | inBanner
deriving DecidableEq, Repr

/-- Parser state: the tree under construction plus the streaming-mode locals of
`load_from_string` (`current_section`, `most_recent_item`, `indent_adjust`,
`end_indent_adjust`, `temp_banner`, `in_banner`, `banner_end_lines`,
`banner_end_contains`). -/
structure PState where
  tree : HC
  current_section : Path
  most_recent_item : Path
  indent_adjust : Int
  end_indent_adjust : List (String → Bool)
  temp_banner : List String
  in_banner : Bool
  banner_end_lines : List String
  banner_end_contains : List String

/-- Source `end_of_banner_test`: a line ends a banner when it starts with a caret,
is one of the accumulated terminator lines, or contains one of the accumulated
terminator tokens. -/
def end_of_banner_test (banner_end_lines banner_end_contains : List String)
    (config_line : String) : Bool :=
  if pyStartsWith "^" config_line then true
  else if banner_end_lines.contains config_line then true
  else if banner_end_contains.any (fun c => strContains c config_line) then true
  else false

/-- The node created for a collapsed banner block: `add_child("\n".join(temp_banner), True)`
followed by `real_indent_level = 0`. -/
def bannerNode (text : String) : HC :=
  .mk { defaultData text with real_indent_level := 0 } []

/-- The node created for a normal line: `current_section.add_child(line, True)`
followed by `real_indent_level = this_indent`. -/
def lineNode (text : String) (this_indent : Int) : HC :=
  .mk { defaultData text with real_indent_level := this_indent } []

/-- One bounded round of the walk back up the tree (the bound only serves
structural termination; `ascend` always supplies enough of it). -/
def ascendGo (t : HC) (this_indent : Int) : Nat → Path → Path
  | 0, q => q
  | fuel + 1, q =>
    if this_indent ≤ indentAt t q then
      match q with
      | [] => []
      | _ :: _ => ascendGo t this_indent fuel q.dropLast
    else q

/-- The walk back up the tree: `while this_indent <= current_section.real_indent_level:
current_section = current_section.parent`.  The root's sentinel level is `-1`, and
every reachable state has a nonnegative effective indent, so the loop never asks
the root for its parent; the model stops at the root. -/
def ascend (t : HC) (p : Path) (this_indent : Int) : Path :=
  ascendGo t this_indent (p.length + 1) p

/-- One line of `load_from_string`'s streaming loop (source lines 178–243). -/
def parseLine (opts : Options) (st : PState) (line : String) : Except ParseErr PState :=
  if st.in_banner then
    -- Process banners in configuration into one line
    let tb := if line ≠ "!" then st.temp_banner ++ [line] else st.temp_banner
    if end_of_banner_test st.banner_end_lines st.banner_end_contains line then
      let t := addChildAt st.tree [] (bannerNode (joinNL tb))
      .ok { st with
            tree := t, in_banner := false,
            most_recent_item := newChildPath st.tree [],
            current_section := [], temp_banner := [] }
    else
      .ok { st with temp_banner := tb }
  else if pyStartsWith "banner " line then
    -- Start of a banner: capture the delimiter token when the line has one
    let st := { st with in_banner := true, temp_banner := st.temp_banner ++ [line] }
    match (pyWords line).get? 2 with
    | some w =>
      .ok { st with
            banner_end_contains := st.banner_end_contains ++ [w],
            banner_end_lines := st.banner_end_lines ++ [pyTake 1 w, pyTake 2 w] }
    | none => .ok st
  else
    let actual_indent := leadingWS line
    let line1 := spaces actual_indent ++ joinSpace (pyWords line)
    match opts.per_line_sub with
    | none => .error (.missingKey "per_line_sub")
    | some subs =>
      let line2 := pyRstrip (subs.foldl (fun l r => r.sub l) line1)
      -- If line is now empty, move to the next
      if line2 = "" then .ok st
      else
        let this_indent : Int := (leadingWS line2 : Int) + st.indent_adjust
        let text := pyLstrip line2
        -- Walks back up the tree, then down by one step
        let cs1 := ascend st.tree st.current_section this_indent
        let cs2 := if this_indent > indentAt st.tree st.most_recent_item
          then st.most_recent_item else cs1
        let newPath := newChildPath st.tree cs2
        let t := addChildAt st.tree cs2 (lineNode text this_indent)
        match opts.indent_adjust with
        | none => .error (.missingKey "indent_adjust")
        | some rules =>
          let (adj1, stack1) :=
            match rules.find? (fun r => r.start_expression text) with
            | some r => (st.indent_adjust + 1, st.end_indent_adjust ++ [r.end_expression])
            | none => (st.indent_adjust, st.end_indent_adjust)
          let (adj2, stack2) :=
            match stack1 with
            | [] => (adj1, stack1)
            | e :: restE => if e text then (adj1 - 1, restE) else (adj1, stack1)
          .ok { st with
                tree := t, current_section := cs2, most_recent_item := newPath,
                indent_adjust := adj2, end_indent_adjust := stack2 }

/-- Initial parser state over a root tree: the root's sentinel
`real_indent_level = -1`, both cursors at the root, and the universal banner
terminator lines. -/
def initState (root : HC) : PState :=
  { tree := .mk { root.data with real_indent_level := -1 } root.children,
    current_section := [], most_recent_item := [],
    indent_adjust := 0, end_indent_adjust := [], temp_banner := [], in_banner := false,
    banner_end_lines := ["EOF", "%", "!"], banner_end_contains := [] }

/-- Source `HConfig.load_from_string`: apply every `full_text_sub` rewrite, stream
the lines, and fail if the input ends while still inside a banner (the final
`assert not in_banner`). -/
def load_from_string (opts : Options) (root : HC) (config_text : String) :
    Except ParseErr HC :=
  match opts.full_text_sub with
  | none => .error (.missingKey "full_text_sub")
  | some subs =>
    let text := subs.foldl (fun s r => r.sub s) config_text
    match (pySplitlines text).foldlM (parseLine opts) (initState root) with
    | .error e => .error e
    | .ok st => if st.in_banner then .error .inBanner else .ok st.tree

/-! ## The banner mode machine on its own

A projection of the parser used to state when an input "ends while still inside a
banner" independently of the rest of parsing. -/

structure BannerSt where
  in_banner : Bool
  banner_end_lines : List String
  banner_end_contains : List String

/-- The banner-tracking part of one `parseLine` step: normal lines only matter
through the banner-start test, which reads the raw (pre-collapse) line. -/
def bannerStep (b : BannerSt) (line : String) : BannerSt :=
  if b.in_banner then
    if end_of_banner_test b.banner_end_lines b.banner_end_contains line then
      { b with in_banner := false }
    else b
  else if pyStartsWith "banner " line then
    match (pyWords line).get? 2 with
    | some w =>
      { in_banner := true,
        banner_end_lines := b.banner_end_lines ++ [pyTake 1 w, pyTake 2 w],
        banner_end_contains := b.banner_end_contains ++ [w] }
    | none => { b with in_banner := true }
  else b

/-- The banner fields of a parser state. -/
def projBanner (st : PState) : BannerSt :=
  { in_banner := st.in_banner, banner_end_lines := st.banner_end_lines,
    banner_end_contains := st.banner_end_contains }

/-- Whether the text (after the whole-text rewrites) ends while a banner block is
still open. -/
def endsInBanner (subs : List SubRule) (text : String) : Bool :=
  ((pySplitlines (subs.foldl (fun s r => r.sub s) text)).foldl bannerStep
    { in_banner := false, banner_end_lines := ["EOF", "%", "!"],
      banner_end_contains := [] }).in_banner

/-- Whether every line of the stream is consumed by banner handling — inside a
banner block or opening one — so that the per-line processing of source lines
207–243 (which reads `per_line_sub` at line 209 before the emptiness test) is
never reached. -/
def allBannerLines (b : BannerSt) : List String → Bool
  | [] => true
  | line :: ls =>
    if b.in_banner || pyStartsWith "banner " line then allBannerLines (bannerStep b line) ls
    else false

/-- Whether some line of the stream is processed in normal mode and is still
non-empty after whitespace collapse, the per-line substitutions and the final
rstrip — the exact condition under which source line 236 reads
`self.options['indent_adjust']`. -/
def reachesIndentAdjust (subs : List SubRule) (b : BannerSt) : List String → Bool
  | [] => false
  | line :: ls =>
    if b.in_banner || pyStartsWith "banner " line then
      reachesIndentAdjust subs (bannerStep b line) ls
    else if pyRstrip (subs.foldl (fun l r => r.sub l)
        (spaces (leadingWS line) ++ joinSpace (pyWords line))) = "" then
      reachesIndentAdjust subs b ls
    else true

/-! ## Concrete example inputs of spec §8 -/

def ifaceExampleText : String :=
  "interface GigabitEthernet0/1\n description uplink\n no shutdown\ninterface GigabitEthernet0/2\n shutdown"

/-- The tree the two-interface example parses to: two depth-1 nodes, each with its
indented lines as depth-2 children in original order. -/
def ifaceExampleTree : HC :=
  .mk { defaultData "" with real_indent_level := -1 }
    [ .mk { defaultData "interface GigabitEthernet0/1" with real_indent_level := 0 }
        [ lineNode "description uplink" 1, lineNode "no shutdown" 1 ],
      .mk { defaultData "interface GigabitEthernet0/2" with real_indent_level := 0 }
        [ lineNode "shutdown" 1 ] ]

def bannerExampleText : String := "banner motd ^C\nWelcome to the device\n^C"

/-- The tree the banner example parses to: one depth-1 node holding the opening
line, the interior line and the terminator line joined with newlines. -/
def bannerExampleTree : HC :=
  .mk { defaultData "" with real_indent_level := -1 }
    [ bannerNode "banner motd ^C\nWelcome to the device\n^C" ]

/-! ## Sorted traversal (spec §4.7) and the dump/load serializer -/

/-- Total number of nodes in a forest (termination measure for forest recursions). -/
def sizeF : List HC → Nat
  | [] => 0
  | .mk _ cs :: rest => 1 + sizeF cs + sizeF rest

/-- Paths of all strict descendants of a node in plain pre-order (children in
stored order, each followed by its own subtree): the node identities of
`all_children` over a forest, with `p` the owner's path and `i` the index of the
first listed child. -/
def preorderF : Path → Nat → List HC → List Path
  | _, _, [] => []
  | p, i, .mk _ cs :: rest =>
    (p ++ [i]) :: (preorderF (p ++ [i]) 0 cs ++ preorderF p (i + 1) rest)

def preorderPaths (t : HC) : List Path := preorderF [] 0 t.children

/-- Stable insertion by `order_weight`: the new element goes before the first
strictly heavier element, hence before later elements of equal weight. -/
def insertPair (x : Nat × HC) : List (Nat × HC) → List (Nat × HC)
  | [] => [x]
  | y :: ys =>
    if x.2.data.order_weight ≤ y.2.data.order_weight then x :: y :: ys
    else y :: insertPair x ys

/-- Modelled from the spec: the stable sort of a sibling list by `order_weight`
with insertion order as tie-break (§4.7), over index-annotated children. -/
def sortPairs (l : List (Nat × HC)) : List (Nat × HC) := l.foldr insertPair []

/-- Size of the trees hanging off an index-annotated sibling list. -/
def sizeP (l : List (Nat × HC)) : Nat := sizeF (l.map Prod.snd)

theorem sizeF_cons (t : HC) (l : List HC) : sizeF (t :: l) = sizeF [t] + sizeF l := by
  cases t with
  | mk d cs => simp [sizeF]

theorem sizeP_cons (x : Nat × HC) (l : List (Nat × HC)) :
    sizeP (x :: l) = sizeF [x.2] + sizeP l := by
  show sizeF (x.2 :: l.map Prod.snd) = _
  rw [sizeF_cons]
  rfl

theorem sizeP_insertPair (x : Nat × HC) (l : List (Nat × HC)) :
    sizeP (insertPair x l) = sizeP (x :: l) := by
  induction l with
  | nil => rfl
  | cons y ys ih =>
    rw [insertPair]
    split
    · rfl
    · show sizeP (y :: insertPair x ys) = _
      rw [sizeP_cons, ih, sizeP_cons, sizeP_cons, sizeP_cons]
      omega

theorem sizeP_sortPairs (l : List (Nat × HC)) : sizeP (sortPairs l) = sizeP l := by
  induction l with
  | nil => rfl
  | cons x xs ih =>
    show sizeP (insertPair x (sortPairs xs)) = _
    rw [sizeP_insertPair, sizeP_cons, ih, sizeP_cons]

theorem sizeP_enum (l : List HC) : sizeP l.enum = sizeF l := by
  simp [sizeP, List.enum_map_snd]

theorem sizeF_mk_cons (d : NodeData) (cs : List HC) (l : List HC) :
    sizeF (HC.mk d cs :: l) = 1 + sizeF cs + sizeF l := by simp [sizeF]

/-- Modelled from the spec: `all_children_sorted` (§4.7) over a forest given with
its sibling indices — yield each child of the stable weight-sorted sibling list,
recursively, pre-order.  Paths (built from the original indices) name the nodes. -/
def sortedF : Path → List (Nat × HC) → List Path
  | _, [] => []
  | p, (i, .mk d cs) :: rest =>
    (p ++ [i]) :: (sortedF (p ++ [i]) (sortPairs cs.enum) ++ sortedF p rest)
termination_by p l => sizeP l
decreasing_by
  · rw [sizeP_sortPairs, sizeP_enum]
    show sizeF cs < sizeP ((i, HC.mk d cs) :: rest)
    rw [sizeP_cons]
    show _ < sizeF [HC.mk d cs] + _
    rw [sizeF_mk_cons]
    omega
  · show sizeP rest < sizeP ((i, HC.mk d cs) :: rest)
    rw [sizeP_cons]
    show _ < sizeF [HC.mk d cs] + _
    rw [sizeF_mk_cons]
    omega

/-- Source `all_children_sorted` at the root. -/
def all_children_sorted (t : HC) : List Path := sortedF [] (sortPairs t.children.enum)

/-- One flat record of the serialization format. -/
structure DumpRec where
  depth : Nat
  text : String
  tags : List String
  comments : List String
  new_in_config : Bool
deriving DecidableEq, Repr

/-- The record `dump` emits for one node (`child.depth()` is the path length). -/
def recordAt (t : HC) (q : Path) : DumpRec :=
  { depth := q.length, text := textAt t q,
    tags := ((getNode? t q).map (fun n => n.data.tags)).getD [],
    comments := ((getNode? t q).map (fun n => n.data.comments)).getD [],
    new_in_config := ((getNode? t q).map (fun n => n.data.new_in_config)).getD false }

/-- Source `HConfig.dump` with no lineage rules: one record per node along the
sorted traversal. -/
def dump (t : HC) : List DumpRec := (all_children_sorted t).map (recordAt t)

/-- All per-node records in plain pre-order: the full per-node record list the
round-trip claim compares (one per node/path). -/
def nodeRecords (t : HC) : List DumpRec := (preorderPaths t).map (recordAt t)

/-- The exceptions the parent-selection expressions of `load_from_dump` raise:
reading `parent` on the root, `islice` with a negative index, and `next` on an
exhausted lineage slice. -/
inductive LoadErr where
  | attrError
  | valueError
  | stopIteration
deriving DecidableEq, Repr

/-- The nonempty prefixes of a path: the node primitive's `lineage()` (outermost
ancestor first, the node itself last, root excluded), as documented by the
source comment in `load_from_dump`. -/
def lineagePaths (p : Path) : List Path :=
  (List.range p.length).map (fun i => p.take (i + 1))

/-- Parent selection of `load_from_dump` (source lines 276–290): root for depth 1,
`last_item.parent` for an equal depth, `last_item` for one deeper, otherwise the
ancestor at depth `d - 1` of `last_item.lineage()`. -/
def parentFor (last : Path) (d : Nat) : Except LoadErr Path :=
  if d = 1 then .ok []
  else if last.length = d then
    match last with
    | [] => .error .attrError
    | _ :: _ => .ok last.dropLast
  else if last.length + 1 = d then .ok last
  else if d < 2 then .error .valueError
  else
    match (lineagePaths last).get? (d - 2) with
    | some q => .ok q
    | none => .error .stopIteration

/-- The payload a loaded record gives its new node: a default child whose tags,
comments and `new_in_config` are overwritten from the record. -/
def recData (r : DumpRec) : NodeData :=
  { defaultData r.text with
    tags := r.tags, comments := r.comments, new_in_config := r.new_in_config }

/-- One record of `load_from_dump`: create a new child under the selected parent
(`force_duplicate`), copy tags, comments and `new_in_config`, and make the new
node `last_item`. -/
def loadStep (t : HC) (last : Path) (r : DumpRec) : Except LoadErr (HC × Path) :=
  match parentFor last r.depth with
  | .error e => .error e
  | .ok par => .ok (addChildAt t par (.mk (recData r) []), newChildPath t par)

def loadFromDumpAux : HC → Path → List DumpRec → HC × Option LoadErr
  | t, _, [] => (t, none)
  | t, last, r :: rs =>
    match loadStep t last r with
    | .error e => (t, some e)
    | .ok (t', last') => loadFromDumpAux t' last' rs

/-- Source `HConfig.load_from_dump` on a fresh tree, keeping the partially built
tree next to the first error if one occurs (the Python mutates `self` in place
and lets the exception propagate). -/
def load_from_dump (ds : List DumpRec) : HC × Option LoadErr :=
  loadFromDumpAux emptyRoot [] ds

/-- Depth of the record at `j` minus the context: the previous record's depth,
or `d₀` before the first record. -/
def prevDepth (d₀ : Nat) (ds : List DumpRec) (j : Nat) : Nat :=
  if j = 0 then d₀ else ((ds.get? (j - 1)).map DumpRec.depth).getD 0

/-- A record sequence is malformed at `j` (relative to a starting depth `d₀`)
when the record exists and has depth `0` or jumps forward by more than one. -/
def malformedRel (d₀ : Nat) (ds : List DumpRec) (j : Nat) : Bool :=
  match ds.get? j with
  | none => false
  | some r => r.depth = 0 || decide (r.depth > prevDepth d₀ ds j + 1)

/-- Malformedness as the claim states it: depth `0`, or a depth jump forward by
more than one relative to the previous record. -/
def malformedAt (ds : List DumpRec) (j : Nat) : Bool := malformedRel 0 ds j

/-- Depth-validity of a record sequence relative to the depth of the node last
created: what the records of any `dump` satisfy. -/
def validSeq : Nat → List DumpRec → Prop
  | _, [] => True
  | d, r :: rs => 1 ≤ r.depth ∧ r.depth ≤ d + 1 ∧ validSeq r.depth rs

/-- The analogous validity of a path-length sequence. -/
def lenValid : Nat → List Path → Prop
  | _, [] => True
  | d, q :: qs => 1 ≤ q.length ∧ q.length ≤ d + 1 ∧ lenValid q.length qs

/-- Whether `p` names a node reached by always taking the last child: the paths
at which appending a child extends the pre-order listing at its end. -/
def allLast : HC → Path → Bool
  | _, [] => true
  | .mk _ cs, i :: rest =>
    match cs.get? i with
    | some c => decide (i + 1 = cs.length) && allLast c rest
    | none => false

/-- Length of the last path in a list, or a default: the running depth bound of
`lenValid` after consuming a block. -/
def endLen (d : Nat) (xs : List Path) : Nat := ((xs.getLast?).map List.length).getD d

/-! ## The vendor-specific remark removal (`_remove_acl_remarks`) -/

/-- Remove the first child whose text equals the given one: Python
`list.remove(entry)` removes the first element equal to `entry` under the node
primitive's equality (§6), which distinguishes nodes of different text; this
development only invokes removal where it coincides with first-equal-text
removal. -/
def removeFirstByText (txt : String) : List HC → List HC
  | [] => []
  | c :: rest => if c.data.text = txt then rest else c :: removeFirstByText txt rest

/-- The `for entry in acl.children: ... acl.children.remove(entry)` loop of
`_remove_acl_remarks` with Python's index-based iteration: the internal index
advances after a removal too, so the element shifted into the removed slot is
skipped.  The bound only serves termination and is always supplied at the
list's length, which the shrinking list never exceeds. -/
def removeEntriesLoop : Nat → Nat → List HC → List HC
  | 0, _, cs => cs
  | fuel + 1, i, cs =>
    match cs.get? i with
    | none => cs
    | some entry =>
      if pyStartsWith "remark" entry.data.text then
        removeEntriesLoop fuel (i + 1) (removeFirstByText entry.data.text cs)
      else removeEntriesLoop fuel (i + 1) cs

/-- Source `HConfig._remove_acl_remarks`: for each direct child whose text starts
with `ip access-list `, run the removal loop over its children. -/
def _remove_acl_remarks (t : HC) : HC :=
  match t with
  | .mk d cs => .mk d (cs.map (fun c =>
      if pyStartsWith "ip access-list " c.data.text then
        match c with
        | .mk dc ccs => .mk dc (removeEntriesLoop ccs.length 0 ccs)
      else c))

/-- A leaf configuration node with default payload. -/
def leaf (s : String) : HC := .mk (defaultData s) []

/-- An IPv4 access-list block with two consecutive remark children. -/
def aclExampleTree : HC :=
  .mk (defaultData "")
    [ .mk (defaultData "ip access-list extended FOO")
        [ leaf "remark first", leaf "remark second", leaf "permit ip any any" ] ]

/-- What `_remove_acl_remarks` actually leaves of it: the second remark child
survives. -/
def aclExampleResult : HC :=
  .mk (defaultData "")
    [ .mk (defaultData "ip access-list extended FOO")
        [ leaf "remark second", leaf "permit ip any any" ] ]

/-! ## The rule engine and the filtered traversal (spec sections 4.2, 4.7) -/

/-- Python `s.endswith(p)`. -/
def pyEndsWith (sfx s : String) : Bool :=
  (s.toList.reverse.take sfx.toList.length) = sfx.toList.reverse

/-- Modelled from the spec: one specifier applied to one line of text (§3). -/
def specMatch : MatchSpec → String → Bool
  | .equals s, txt => txt = s
  | .startswith s, txt => pyStartsWith s txt
  | .endswith s, txt => pyEndsWith s txt
  | .contains s, txt => strContains s txt
  | .regex p, txt => p txt

/-- Modelled from the spec: `strip_negation` normalizes a negation-prefixed line
to its positive form before comparison (§4.2). -/
def stripNegation (strip : Bool) (txt : String) : String :=
  if strip && pyStartsWith "no " txt then String.mk (txt.toList.drop 3) else txt

def levelMatch (strip : Bool) (ls : LevelSpec) (txt : String) : Bool :=
  let b := specMatch ls.spec (stripNegation strip txt)
  if ls.negated then !b else b

/-- Modelled from the spec: the node primitive's `lineage_test` (§4.2): the
rule's per-level specifiers are tested positionally against the texts of the
node's lineage (outermost first, the node itself last); the rule names exactly
the node's depth and every position must match. -/
def lineage_test (t : HC) (p : Path) (rule : LineageRule) (strip : Bool) : Bool :=
  decide (rule.length = p.length) &&
    (List.zip rule ((lineagePaths p).map (fun q => textAt t q))).all
      (fun pr => levelMatch strip pr.1 pr.2)

/-- The source's filtered pass (`all_children_sorted_with_lineage_rules`): one
step per node of the sorted traversal, carrying the `matched` and `yielded`
identity sets (sets of paths; the nodes hash by identity). -/
def filteredGo (t : HC) (rules : List LineageRule) :
    List Path → List Path → List Path → List Path
  | [], _, _ => []
  | c :: rest, m, y =>
    if (lineagePaths c).any (fun a => m.contains a) then
      c :: filteredGo t rules rest m (c :: y)
    else
      match rules.find? (fun r => lineage_test t c r false) with
      | some _ =>
        (lineagePaths c).filter (fun a => !(y.contains a)) ++
          filteredGo t rules rest (c :: m)
            ((lineagePaths c).filter (fun a => !(y.contains a)) ++ y)
      | none => filteredGo t rules rest m y

/-- Source `HConfig.all_children_sorted_with_lineage_rules`. -/
def all_children_sorted_with_lineage_rules (t : HC) (rules : List LineageRule) :
    List Path :=
  filteredGo t rules (all_children_sorted t) [] []

/-- The strict ancestors of a node, nearest the root first. -/
def strictAncestors (p : Path) : List Path :=
  (List.range (p.length - 1)).map (fun i => p.take (i + 1))

/-- The claim's wording of the filtered pass: a node with an already-matched
ancestor is yielded on its turn; otherwise, on the node's first rule match,
every not-yet-yielded strict ancestor is yielded immediately (nearest the root
first) and the matched node itself follows on its own turn directly after
them, not earlier; otherwise nothing is yielded. -/
def filteredSpecGo (t : HC) (rules : List LineageRule) :
    List Path → List Path → List Path → List Path
  | [], _, _ => []
  | c :: rest, m, y =>
    if (strictAncestors c).any (fun a => m.contains a) then
      c :: filteredSpecGo t rules rest m (c :: y)
    else if (rules.find? (fun r => lineage_test t c r false)).isSome then
      ((strictAncestors c).filter (fun a => !(y.contains a)) ++ [c]) ++
        filteredSpecGo t rules rest (c :: m)
          (((strictAncestors c).filter (fun a => !(y.contains a)) ++ [c]) ++ y)
    else filteredSpecGo t rules rest m y

/-- The claim's description, run over the same sorted traversal. -/
def filteredSpec (t : HC) (rules : List LineageRule) : List Path :=
  filteredSpecGo t rules (all_children_sorted t) [] []

/-! ## Sectional exiting (`add_sectional_exiting`, source lines 456–471) -/

/-- Does the node at `p` have a direct child with this text (the
`rule['exit_text'] in child` membership test)? -/
def hasChildText (t : HC) (p : Path) (e : String) : Bool :=
  ((getNode? t p).map (fun n => n.children.any (fun c => c.data.text == e))).getD false

/-- Modelled from the spec: `del_child_by_text` removes every direct child whose
text equals the given one (§4.5: remove any existing direct child whose text
equals `exit_text`). -/
def delChildrenByText (t : HC) (p : Path) (e : String) : HC :=
  modifyAt t p (fun n => .mk n.data (n.children.filter (fun c => !(c.data.text == e))))

/-- The child `add_child(rule['exit_text'])` creates, once `order_weight = 999`
has been assigned; the preceding removal guarantees no same-text sibling, so the
non-forcing `add_child` always creates a fresh node. -/
def exitChild (e : String) : HC := .mk { defaultData e with order_weight := 999 } []

/-- One (node, rule) step of `add_sectional_exiting`'s inner loop
(source lines 466–471). -/
def applyExitRule (t : HC) (p : Path) (r : ExitRule) : HC :=
  if lineage_test t p r.lineage false then
    addChildAt
      (if hasChildText t p r.exit_text then delChildrenByText t p r.exit_text else t)
      p (exitChild r.exit_text)
  else t

/-- A node's turn: every sectional-exiting rule applied in order. -/
def exitTurn (rules : List ExitRule) (t : HC) (p : Path) : HC :=
  rules.foldl (fun acc r => applyExitRule acc p r) t

/-- The traversal of `add_sectional_exiting`: the `all_children` generator
yields a node, the node's turn runs (possibly removing and appending that
node's own children), and the generator then walks the node's current child
list, position by position.  A node's child list changes only during its own
turn, before its frame starts, so iterating live positions is faithful to the
Python generator.  The bound only serves termination: the live generator runs
forever exactly when every bound runs out (a rule matching its own fresh exit
nodes). -/
def visitFrame (rules : List ExitRule) : Nat → HC → Path → Nat → Option HC
  | 0, _, _, _ => none
  | fuel + 1, t, p, i =>
    if i < childCount t p then
      match visitFrame rules fuel (exitTurn rules t (p ++ [i])) (p ++ [i]) 0 with
      | none => none
      | some t2 => visitFrame rules fuel t2 p (i + 1)
    else some t

/-- Source `HConfig.add_sectional_exiting`, with a step bound. -/
def add_sectional_exiting (rules : List ExitRule) (fuel : Nat) (t : HC) : Option HC :=
  visitFrame rules fuel t [] 0

/-- The payloads of the direct children of the node at `p`. -/
def childData (t : HC) (p : Path) : List NodeData :=
  ((getNode? t p).map (fun n => n.children.map HC.data)).getD []

/-- Exactly one member of a payload list carries the exit text, and every
member with that text has order weight 999. -/
def exitOkD (ds : List NodeData) (e : String) : Prop :=
  (ds.filter (fun d => d.text == e)).length = 1 ∧
  ∀ d ∈ ds, d.text = e → d.order_weight = 999

/-- The node at `p` has exactly one direct child whose text is `e`, and every
direct child with that text has order weight 999. -/
def exitOk (t : HC) (p : Path) (e : String) : Prop := exitOkD (childData t p) e

instance exitOkD_decidable (ds : List NodeData) (e : String) : Decidable (exitOkD ds e) :=
  inferInstanceAs (Decidable ((ds.filter (fun d => d.text == e)).length = 1 ∧
    ∀ d ∈ ds, d.text = e → d.order_weight = 999))

instance exitOk_decidable (t : HC) (p : Path) (e : String) : Decidable (exitOk t p e) :=
  inferInstanceAs (Decidable (exitOkD (childData t p) e))

/-- Whether `a` is a prefix of `q` (as paths: `q` lies at or below `a`). -/
def pathPre (a q : Path) : Prop := q.take a.length = a

/-- The part of the tree a frame at `(p, i)` may still touch: the subtrees of
the children of `p` from position `i` on. -/
def Reg (p : Path) (i : Nat) (q : Path) : Prop :=
  ∃ j, i ≤ j ∧ pathPre (p ++ [j]) q

/-- A two-interface tree for exercising sectional exiting. -/
def sectionalExampleTree : HC :=
  .mk (defaultData "")
    [ .mk (defaultData "interface Gi1") [ .mk (defaultData "description up") [] ],
      .mk (defaultData "hostname r1") [] ]

/-- One rule: interfaces get an `exit` child. -/
def sectionalExampleRule : ExitRule := ⟨[⟨.startswith "interface", false⟩], "exit"⟩

/-- The example after one run of sectional exiting. -/
def sectionalExampleOnce : HC :=
  .mk (defaultData "")
    [ .mk (defaultData "interface Gi1")
        [ .mk (defaultData "description up") [], exitChild "exit" ],
      .mk (defaultData "hostname r1") [] ]

/-! ## Lemmas about the parser -/

theorem ascendGo_succ (t : HC) (ind : Int) (fuel : Nat) (q : Path) :
    ascendGo t ind (fuel + 1) q =
      if ind ≤ indentAt t q then
        (match q with
         | [] => []
         | _ :: _ => ascendGo t ind fuel q.dropLast)
      else q := rfl

theorem ascendGo_fuel (t : HC) (ind : Int) :
    ∀ (f₁ f₂ : Nat) (q : Path), q.length < f₁ → q.length < f₂ →
      ascendGo t ind f₁ q = ascendGo t ind f₂ q := by
  intro f₁
  induction f₁ with
  | zero => intro f₂ q h; omega
  | succ f ih =>
    intro f₂ q h₁ h₂
    match f₂, h₂ with
    | f₂ + 1, _ =>
      rw [ascendGo_succ, ascendGo_succ]
      split
      · match q with
        | [] => rfl
        | a :: rest =>
          have h₁' : ((a :: rest).dropLast).length < f := by
            simp only [List.length_dropLast, List.length_cons] at *
            omega
          have h₂' : ((a :: rest).dropLast).length < f₂ := by
            simp only [List.length_dropLast, List.length_cons] at *
            omega
          exact ih f₂ _ h₁' h₂'
      · rfl

/-- The while-loop reading of `ascend`: one step up while the effective indent is
at most the cursor's recorded level, stopping at the root, and no step otherwise. -/
theorem ascend_step (t : HC) (p : Path) (ind : Int) :
    (ind ≤ indentAt t p → p ≠ [] → ascend t p ind = ascend t p.dropLast ind) ∧
    (ind ≤ indentAt t p → p = [] → ascend t p ind = []) ∧
    (¬ ind ≤ indentAt t p → ascend t p ind = p) := by
  refine ⟨?_, ?_, ?_⟩
  · intro hle hne
    match p, hne with
    | a :: rest, _ =>
      show ascendGo t ind (rest.length + 1 + 1) (a :: rest) = _
      rw [ascendGo_succ, if_pos hle]
      exact ascendGo_fuel t ind _ _ _
        (by simp [List.length_dropLast]) (by simp [List.length_dropLast])
  · intro hle he; subst he
    simp [ascend, ascendGo, hle]
  · intro hlt
    show ascendGo t ind (p.length + 1) p = p
    rw [ascendGo_succ, if_neg hlt]

/-- What one NORMAL-mode line does: the new node is attached under
`most_recent_item` when its effective indent exceeds that node's recorded level
and under the ascended `current_section` otherwise, and both cursors move. -/
theorem parseLine_normal (opts : Options) (subs : List SubRule) (irules : List IndentRule)
    (st : PState) (line : String)
    (hin : st.in_banner = false)
    (hbs : pyStartsWith "banner " line = false)
    (hper : opts.per_line_sub = some subs)
    (hia : opts.indent_adjust = some irules)
    (line2 : String)
    (hline2 : line2 = pyRstrip (subs.foldl (fun l r => r.sub l)
      (spaces (leadingWS line) ++ joinSpace (pyWords line))))
    (hne : line2 ≠ "") :
    ∃ adj stack,
      parseLine opts st line = .ok { st with
        tree := addChildAt st.tree
          (if ((leadingWS line2 : Int) + st.indent_adjust) >
              indentAt st.tree st.most_recent_item
           then st.most_recent_item
           else ascend st.tree st.current_section ((leadingWS line2 : Int) + st.indent_adjust))
          (lineNode (pyLstrip line2) ((leadingWS line2 : Int) + st.indent_adjust)),
        current_section :=
          (if ((leadingWS line2 : Int) + st.indent_adjust) >
              indentAt st.tree st.most_recent_item
           then st.most_recent_item
           else ascend st.tree st.current_section ((leadingWS line2 : Int) + st.indent_adjust)),
        most_recent_item := newChildPath st.tree
          (if ((leadingWS line2 : Int) + st.indent_adjust) >
              indentAt st.tree st.most_recent_item
           then st.most_recent_item
           else ascend st.tree st.current_section ((leadingWS line2 : Int) + st.indent_adjust)),
        indent_adjust := adj, end_indent_adjust := stack } := by
  rw [parseLine]
  simp only [hin, hbs, hper, hia, Bool.false_eq_true, if_false]
  rw [← hline2, if_neg hne]
  cases hfind : irules.find? (fun r => r.start_expression (pyLstrip line2)) with
  | none =>
    cases hstack : st.end_indent_adjust with
    | nil => exact ⟨st.indent_adjust, [], by simp⟩
    | cons e restE =>
      by_cases he : e (pyLstrip line2) = true
      · exact ⟨st.indent_adjust - 1, restE, by simp [he]⟩
      · exact ⟨st.indent_adjust, e :: restE, by simp [he]⟩
  | some r =>
    cases hstack : st.end_indent_adjust ++ [r.end_expression] with
    | nil => exact ⟨st.indent_adjust + 1, [], by simp [hstack]⟩
    | cons e restE =>
      by_cases he : e (pyLstrip line2) = true
      · exact ⟨st.indent_adjust + 1 - 1, restE, by simp [hstack, he]⟩
      · exact ⟨st.indent_adjust + 1, e :: restE, by simp [hstack, he]⟩

/-- One `parseLine` step never fails when the lazily-read keys are present, and
its banner fields evolve exactly as `bannerStep` says. -/
theorem parseLine_banner_sim (opts : Options) (subs : List SubRule) (irules : List IndentRule)
    (hper : opts.per_line_sub = some subs) (hia : opts.indent_adjust = some irules)
    (st : PState) (line : String) :
    ∃ st', parseLine opts st line = .ok st' ∧
      projBanner st' = bannerStep (projBanner st) line := by
  by_cases hib : st.in_banner = true
  · rw [parseLine, bannerStep]
    simp only [projBanner, hib, if_true]
    by_cases hend : end_of_banner_test st.banner_end_lines st.banner_end_contains line = true
    · simp only [hend, if_true]
      exact ⟨_, rfl, rfl⟩
    · simp only [hend, Bool.false_eq_true, if_false]
      exact ⟨_, rfl, rfl⟩
  · have hib' : st.in_banner = false := by
      cases h : st.in_banner
      · rfl
      · exact absurd h hib
    by_cases hbs : pyStartsWith "banner " line = true
    · rw [parseLine, bannerStep]
      simp only [projBanner, hib', hbs, Bool.false_eq_true, if_false, if_true]
      cases hw : (pyWords line).get? 2 with
      | some w => exact ⟨_, rfl, rfl⟩
      | none => exact ⟨_, rfl, rfl⟩
    · have hbs' : pyStartsWith "banner " line = false := by
        cases h : pyStartsWith "banner " line
        · rfl
        · exact absurd h hbs
      by_cases hemp : pyRstrip (subs.foldl (fun l r => r.sub l)
          (spaces (leadingWS line) ++ joinSpace (pyWords line))) = ""
      · refine ⟨st, ?_, ?_⟩
        · rw [parseLine]
          simp only [hib', hbs', Bool.false_eq_true, if_false, hper]
          rw [if_pos hemp]
        · rw [bannerStep]
          simp only [projBanner, hib', hbs', Bool.false_eq_true, if_false]
      · obtain ⟨adj, stack, heq⟩ := parseLine_normal opts subs irules st line hib' hbs' hper hia
          _ rfl hemp
        refine ⟨_, heq, ?_⟩
        rw [bannerStep]
        simp only [projBanner, hib', hbs', Bool.false_eq_true, if_false]

/-- The whole streaming loop succeeds under present keys and its banner fields
follow the `bannerStep` fold. -/
theorem foldlM_banner_sim (opts : Options) (subs : List SubRule) (irules : List IndentRule)
    (hper : opts.per_line_sub = some subs) (hia : opts.indent_adjust = some irules) :
    ∀ (lines : List String) (st : PState),
      ∃ st', lines.foldlM (parseLine opts) st = .ok st' ∧
        projBanner st' = lines.foldl bannerStep (projBanner st) := by
  intro lines
  induction lines with
  | nil => intro st; exact ⟨st, rfl, rfl⟩
  | cons l ls ih =>
    intro st
    obtain ⟨st₁, h₁, hp₁⟩ := parseLine_banner_sim opts subs irules hper hia st l
    obtain ⟨st₂, h₂, hp₂⟩ := ih st₁
    refine ⟨st₂, ?_, ?_⟩
    · simp only [List.foldlM_cons, h₁, bind, Except.bind, h₂]
    · rw [List.foldl_cons, ← hp₁, hp₂]

theorem allBannerLines_cons (b : BannerSt) (line : String) (ls : List String) :
    allBannerLines b (line :: ls) =
      if b.in_banner || pyStartsWith "banner " line then allBannerLines (bannerStep b line) ls
      else false := rfl

theorem reachesIndentAdjust_cons (subs : List SubRule) (b : BannerSt) (line : String)
    (ls : List String) :
    reachesIndentAdjust subs b (line :: ls) =
      if b.in_banner || pyStartsWith "banner " line then
        reachesIndentAdjust subs (bannerStep b line) ls
      else if pyRstrip (subs.foldl (fun l r => r.sub l)
          (spaces (leadingWS line) ++ joinSpace (pyWords line))) = "" then
        reachesIndentAdjust subs b ls
      else true := rfl

/-- A line consumed by banner handling parses without reading any options key,
and its banner fields follow `bannerStep`. -/
theorem parseLine_banner_consumed (opts : Options) (st : PState) (line : String)
    (h : st.in_banner = true ∨ (st.in_banner = false ∧ pyStartsWith "banner " line = true)) :
    ∃ st', parseLine opts st line = .ok st' ∧
      projBanner st' = bannerStep (projBanner st) line := by
  rcases h with hib | ⟨hib, hbs⟩
  · rw [parseLine, bannerStep]
    simp only [projBanner, hib, if_true]
    by_cases hend : end_of_banner_test st.banner_end_lines st.banner_end_contains line = true
    · simp only [hend, if_true]
      exact ⟨_, rfl, rfl⟩
    · simp only [hend, Bool.false_eq_true, if_false]
      exact ⟨_, rfl, rfl⟩
  · rw [parseLine, bannerStep]
    simp only [projBanner, hib, hbs, Bool.false_eq_true, if_false, if_true]
    cases hw : (pyWords line).get? 2 with
    | some w => exact ⟨_, rfl, rfl⟩
    | none => exact ⟨_, rfl, rfl⟩

/-- On a normal-mode line, `per_line_sub` is read before anything else — in
particular before the emptiness test — so its absence fails even on a blank
line. -/
theorem parseLine_missing_per (opts : Options) (st : PState) (line : String)
    (hib : st.in_banner = false) (hbs : pyStartsWith "banner " line = false)
    (hper : opts.per_line_sub = none) :
    parseLine opts st line = .error (.missingKey "per_line_sub") := by
  rw [parseLine]
  simp only [hib, hbs, Bool.false_eq_true, if_false, hper]

/-- A normal-mode line that is empty after substitution is skipped, leaving the
state untouched; `indent_adjust` is not read. -/
theorem parseLine_empty_line (opts : Options) (subs : List SubRule) (st : PState)
    (line : String) (hib : st.in_banner = false)
    (hbs : pyStartsWith "banner " line = false)
    (hper : opts.per_line_sub = some subs)
    (hemp : pyRstrip (subs.foldl (fun l r => r.sub l)
      (spaces (leadingWS line) ++ joinSpace (pyWords line))) = "") :
    parseLine opts st line = .ok st := by
  rw [parseLine]
  simp only [hib, hbs, Bool.false_eq_true, if_false, hper]
  rw [if_pos hemp]

/-- On a normal-mode line that stays non-empty after substitution,
`indent_adjust` is read; its absence fails there. -/
theorem parseLine_missing_indent (opts : Options) (subs : List SubRule) (st : PState)
    (line : String) (hib : st.in_banner = false)
    (hbs : pyStartsWith "banner " line = false)
    (hper : opts.per_line_sub = some subs) (hia : opts.indent_adjust = none)
    (hemp : ¬ pyRstrip (subs.foldl (fun l r => r.sub l)
      (spaces (leadingWS line) ++ joinSpace (pyWords line))) = "") :
    parseLine opts st line = .error (.missingKey "indent_adjust") := by
  rw [parseLine]
  simp only [hib, hbs, Bool.false_eq_true, if_false, hper]
  rw [if_neg hemp]
  simp only [hia]

/-- Splitting the condition of the banner-consumption test. -/
theorem bannerConsumed_split {st : PState} {line : String}
    (hc : ((projBanner st).in_banner || pyStartsWith "banner " line) = true) :
    st.in_banner = true ∨ (st.in_banner = false ∧ pyStartsWith "banner " line = true) := by
  cases hib : st.in_banner with
  | true => exact Or.inl rfl
  | false =>
    right
    refine ⟨rfl, ?_⟩
    rcases Bool.or_eq_true_iff.mp hc with h | h
    · exact absurd h (by simp [projBanner, hib])
    · exact h

/-- When every line is consumed by banner handling, the loop succeeds with any
options bundle — no per-line options key is read. -/
theorem foldlM_allBanner (opts : Options) :
    ∀ (lines : List String) (st : PState),
      allBannerLines (projBanner st) lines = true →
      ∃ st', lines.foldlM (parseLine opts) st = .ok st' := by
  intro lines
  induction lines with
  | nil => intro st _; exact ⟨st, rfl⟩
  | cons l ls ih =>
    intro st hall
    rw [allBannerLines_cons] at hall
    by_cases hc : ((projBanner st).in_banner || pyStartsWith "banner " l) = true
    · rw [if_pos hc] at hall
      obtain ⟨st₁, h₁, hp₁⟩ := parseLine_banner_consumed opts st l (bannerConsumed_split hc)
      obtain ⟨st₂, h₂⟩ := ih st₁ (by rw [hp₁]; exact hall)
      refine ⟨st₂, ?_⟩
      simp only [List.foldlM_cons, h₁, bind, Except.bind, h₂]
    · rw [if_neg hc] at hall
      exact absurd hall (by simp)

/-- When some line escapes banner handling and `per_line_sub` is absent, the
loop fails with exactly that missing key (at the first such line). -/
theorem foldlM_missing_per (opts : Options) (hper : opts.per_line_sub = none) :
    ∀ (lines : List String) (st : PState),
      allBannerLines (projBanner st) lines = false →
      lines.foldlM (parseLine opts) st = .error (.missingKey "per_line_sub") := by
  intro lines
  induction lines with
  | nil => intro st h; exact absurd h (by simp [allBannerLines])
  | cons l ls ih =>
    intro st hall
    rw [allBannerLines_cons] at hall
    by_cases hc : ((projBanner st).in_banner || pyStartsWith "banner " l) = true
    · rw [if_pos hc] at hall
      obtain ⟨st₁, h₁, hp₁⟩ := parseLine_banner_consumed opts st l (bannerConsumed_split hc)
      have h₂ := ih st₁ (by rw [hp₁]; exact hall)
      simp only [List.foldlM_cons, h₁, bind, Except.bind, h₂]
    · have hnb : st.in_banner = false ∧ pyStartsWith "banner " l = false := by
        constructor
        · cases hib : st.in_banner with
          | false => rfl
          | true => exact absurd (by simp [projBanner, hib]) hc
        · cases hbs : pyStartsWith "banner " l with
          | false => rfl
          | true => exact absurd (by simp [hbs]) hc
      have h₁ := parseLine_missing_per opts st l hnb.1 hnb.2 hper
      simp only [List.foldlM_cons, h₁, bind, Except.bind]

/-- When no normal-mode line survives substitution non-empty, the loop succeeds
without ever reading `indent_adjust`. -/
theorem foldlM_indent_unneeded (opts : Options) (subs : List SubRule)
    (hper : opts.per_line_sub = some subs) :
    ∀ (lines : List String) (st : PState),
      reachesIndentAdjust subs (projBanner st) lines = false →
      ∃ st', lines.foldlM (parseLine opts) st = .ok st' := by
  intro lines
  induction lines with
  | nil => intro st _; exact ⟨st, rfl⟩
  | cons l ls ih =>
    intro st hr
    rw [reachesIndentAdjust_cons] at hr
    by_cases hc : ((projBanner st).in_banner || pyStartsWith "banner " l) = true
    · rw [if_pos hc] at hr
      obtain ⟨st₁, h₁, hp₁⟩ := parseLine_banner_consumed opts st l (bannerConsumed_split hc)
      obtain ⟨st₂, h₂⟩ := ih st₁ (by rw [hp₁]; exact hr)
      refine ⟨st₂, ?_⟩
      simp only [List.foldlM_cons, h₁, bind, Except.bind, h₂]
    · rw [if_neg hc] at hr
      have hnb : st.in_banner = false ∧ pyStartsWith "banner " l = false := by
        constructor
        · cases hib : st.in_banner with
          | false => rfl
          | true => exact absurd (by simp [projBanner, hib]) hc
        · cases hbs : pyStartsWith "banner " l with
          | false => rfl
          | true => exact absurd (by simp [hbs]) hc
      by_cases hemp : pyRstrip (subs.foldl (fun l r => r.sub l)
          (spaces (leadingWS l) ++ joinSpace (pyWords l))) = ""
      · rw [if_pos hemp] at hr
        have h₁ := parseLine_empty_line opts subs st l hnb.1 hnb.2 hper hemp
        obtain ⟨st₂, h₂⟩ := ih st hr
        refine ⟨st₂, ?_⟩
        simp only [List.foldlM_cons, h₁, bind, Except.bind, h₂]
      · rw [if_neg hemp] at hr
        exact absurd hr (by simp)

/-- When some normal-mode line survives substitution non-empty and
`indent_adjust` is absent, the loop fails with exactly that missing key. -/
theorem foldlM_missing_indent (opts : Options) (subs : List SubRule)
    (hper : opts.per_line_sub = some subs) (hia : opts.indent_adjust = none) :
    ∀ (lines : List String) (st : PState),
      reachesIndentAdjust subs (projBanner st) lines = true →
      lines.foldlM (parseLine opts) st = .error (.missingKey "indent_adjust") := by
  intro lines
  induction lines with
  | nil => intro st h; exact absurd h (by simp [reachesIndentAdjust])
  | cons l ls ih =>
    intro st hr
    rw [reachesIndentAdjust_cons] at hr
    by_cases hc : ((projBanner st).in_banner || pyStartsWith "banner " l) = true
    · rw [if_pos hc] at hr
      obtain ⟨st₁, h₁, hp₁⟩ := parseLine_banner_consumed opts st l (bannerConsumed_split hc)
      have h₂ := ih st₁ (by rw [hp₁]; exact hr)
      simp only [List.foldlM_cons, h₁, bind, Except.bind, h₂]
    · rw [if_neg hc] at hr
      have hnb : st.in_banner = false ∧ pyStartsWith "banner " l = false := by
        constructor
        · cases hib : st.in_banner with
          | false => rfl
          | true => exact absurd (by simp [projBanner, hib]) hc
        · cases hbs : pyStartsWith "banner " l with
          | false => rfl
          | true => exact absurd (by simp [hbs]) hc
      by_cases hemp : pyRstrip (subs.foldl (fun l r => r.sub l)
          (spaces (leadingWS l) ++ joinSpace (pyWords l))) = ""
      · rw [if_pos hemp] at hr
        have h₁ := parseLine_empty_line opts subs st l hnb.1 hnb.2 hper hemp
        have h₂ := ih st hr
        simp only [List.foldlM_cons, h₁, bind, Except.bind, h₂]
      · have h₁ := parseLine_missing_indent opts subs st l hnb.1 hnb.2 hper hia hemp
        simp only [List.foldlM_cons, h₁, bind, Except.bind]

/-! ## Claim theorems about the parser -/

/-- C2: in NORMAL mode every processed line is placed by ascending
`current_section` while the effective indent is at most the cursor's recorded
level and descending to `most_recent_item` exactly when the effective indent
exceeds its recorded level; and the five-line two-interface example of §8, with
empty options, yields two depth-1 nodes, each with its indented lines as
depth-2 children in original order. -/
theorem normal_mode_placement :
    (∀ (opts : Options) (subs : List SubRule) (irules : List IndentRule)
       (st : PState) (line : String),
       st.in_banner = false →
       pyStartsWith "banner " line = false →
       opts.per_line_sub = some subs →
       opts.indent_adjust = some irules →
       ∀ (line2 : String),
       line2 = pyRstrip (subs.foldl (fun l r => r.sub l)
         (spaces (leadingWS line) ++ joinSpace (pyWords line))) →
       line2 ≠ "" →
       ∃ adj stack,
         parseLine opts st line = .ok { st with
           tree := addChildAt st.tree
             (if ((leadingWS line2 : Int) + st.indent_adjust) >
                 indentAt st.tree st.most_recent_item
              then st.most_recent_item
              else ascend st.tree st.current_section
                ((leadingWS line2 : Int) + st.indent_adjust))
             (lineNode (pyLstrip line2) ((leadingWS line2 : Int) + st.indent_adjust)),
           current_section :=
             (if ((leadingWS line2 : Int) + st.indent_adjust) >
                 indentAt st.tree st.most_recent_item
              then st.most_recent_item
              else ascend st.tree st.current_section
                ((leadingWS line2 : Int) + st.indent_adjust)),
           most_recent_item := newChildPath st.tree
             (if ((leadingWS line2 : Int) + st.indent_adjust) >
                 indentAt st.tree st.most_recent_item
              then st.most_recent_item
              else ascend st.tree st.current_section
                ((leadingWS line2 : Int) + st.indent_adjust)),
           indent_adjust := adj, end_indent_adjust := stack }) ∧
    (∀ (t : HC) (p : Path) (ind : Int),
       (ind ≤ indentAt t p → p ≠ [] → ascend t p ind = ascend t p.dropLast ind) ∧
       (ind ≤ indentAt t p → p = [] → ascend t p ind = []) ∧
       (¬ ind ≤ indentAt t p → ascend t p ind = p)) ∧
    load_from_string emptyOptions emptyRoot ifaceExampleText = .ok ifaceExampleTree :=
  ⟨fun opts subs irules st line hin hbs hper hia line2 hl2 hne =>
     parseLine_normal opts subs irules st line hin hbs hper hia line2 hl2 hne,
   fun t p ind => ascend_step t p ind, rfl⟩

theorem normal_mode_placement_witness :
    ∃ adj stack, parseLine emptyOptions (initState emptyRoot) "hostname r1" =
      .ok { initState emptyRoot with
            tree := HC.mk { defaultData "" with real_indent_level := -1 }
              [ lineNode "hostname r1" 0 ],
            current_section := [], most_recent_item := [0],
            indent_adjust := adj, end_indent_adjust := stack } :=
  normal_mode_placement.1 emptyOptions [] [] (initState emptyRoot) "hostname r1"
    rfl rfl rfl rfl "hostname r1" (by decide) (by decide)

/-- C3: with the three parse-time keys present, `load_from_string` reports the
`in_banner` failure exactly on the inputs that end while a banner block is still
open, and never reports it otherwise. -/
theorem unterminated_banner_fails (opts : Options) (subs psubs : List SubRule)
    (irules : List IndentRule) (root : HC) (text : String)
    (hfull : opts.full_text_sub = some subs)
    (hper : opts.per_line_sub = some psubs)
    (hia : opts.indent_adjust = some irules) :
    load_from_string opts root text = .error .inBanner ↔ endsInBanner subs text = true := by
  rw [load_from_string]
  simp only [hfull]
  obtain ⟨st', h, hp⟩ := foldlM_banner_sim opts psubs irules hper hia
    (pySplitlines (subs.foldl (fun s r => r.sub s) text)) (initState root)
  rw [h]
  have hinit : projBanner (initState root) =
      { in_banner := false, banner_end_lines := ["EOF", "%", "!"],
        banner_end_contains := [] } := rfl
  rw [endsInBanner, ← hinit, ← hp]
  by_cases hb : st'.in_banner = true
  · simp [projBanner, hb]
  · simp [projBanner, hb]

theorem unterminated_banner_fails_witness :
    load_from_string emptyOptions emptyRoot "banner motd ^C\nWelcome to the device" =
      .error .inBanner :=
  (unterminated_banner_fails emptyOptions [] [] [] emptyRoot
    "banner motd ^C\nWelcome to the device" rfl rfl rfl).mpr (by decide)

/-- C8 counterexample: the three-line banner example stores the opening line and
the terminator as part of the node's text, so the text is not the interior
line(s) joined with a newline. -/
theorem banner_text_counterexample :
    load_from_string emptyOptions emptyRoot bannerExampleText = .ok bannerExampleTree ∧
    textAt bannerExampleTree [0] ≠ "Welcome to the device" :=
  ⟨rfl, by decide⟩

/-- C8 amended: the banner example yields exactly one depth-1 node, no nodes at
depth 2 or deeper, and its text is the banner's opening line, interior line and
terminator line joined with newlines. -/
theorem banner_example_parse :
    load_from_string emptyOptions emptyRoot bannerExampleText = .ok bannerExampleTree ∧
    childCount bannerExampleTree [] = 1 ∧
    childCount bannerExampleTree [0] = 0 ∧
    textAt bannerExampleTree [0] = "banner motd ^C\nWelcome to the device\n^C" :=
  ⟨rfl, rfl, rfl, by decide⟩

/-- C9 counterexample: an options bundle missing the `ordering` key parses an
input successfully, so a missing key does not make parsing fail for each of the
five keys. -/
theorem missing_ordering_parses :
    load_from_string { emptyOptions with ordering := none } emptyRoot "hostname r1" =
      .ok (HC.mk { defaultData "" with real_indent_level := -1 }
        [ lineNode "hostname r1" 0 ]) := rfl

/-- C9 amended: only `full_text_sub` is required at parse start — its absence
fails on every input before a line is processed; `ordering` and
`sectional_exiting` are never read by `load_from_string`; `per_line_sub` is
read for every line processed in normal mode, before the post-substitution
emptiness test, so it is required exactly when some line escapes banner
handling — including blank or whitespace-only lines — while empty and
banner-only inputs never miss it; `indent_adjust` is read only once a normal
line is still non-empty after substitution, so it is required exactly when
such a line is reached. -/
theorem options_key_laziness :
    (∀ (opts : Options) (root : HC) (text : String), opts.full_text_sub = none →
       load_from_string opts root text = .error (.missingKey "full_text_sub")) ∧
    (∀ (opts : Options) (root : HC) (text : String),
       load_from_string opts root text =
         load_from_string { opts with ordering := none, sectional_exiting := none }
           root text) ∧
    (∀ (opts : Options) (fs : List SubRule) (root : HC) (text : String),
       opts.full_text_sub = some fs → opts.per_line_sub = none →
       if allBannerLines (projBanner (initState root))
           (pySplitlines (fs.foldl (fun s r => r.sub s) text)) then
         (∃ t, load_from_string opts root text = .ok t) ∨
           load_from_string opts root text = .error .inBanner
       else load_from_string opts root text = .error (.missingKey "per_line_sub")) ∧
    (∀ (opts : Options) (fs subs : List SubRule) (root : HC) (text : String),
       opts.full_text_sub = some fs → opts.per_line_sub = some subs →
       opts.indent_adjust = none →
       if reachesIndentAdjust subs (projBanner (initState root))
           (pySplitlines (fs.foldl (fun s r => r.sub s) text)) then
         load_from_string opts root text = .error (.missingKey "indent_adjust")
       else
         (∃ t, load_from_string opts root text = .ok t) ∨
           load_from_string opts root text = .error .inBanner) := by
  refine ⟨?_, ?_, ?_, ?_⟩
  · intro opts root text h
    rw [load_from_string, h]
  · intro opts root text
    rfl
  · intro opts fs root text hfs hper
    by_cases hall : allBannerLines (projBanner (initState root))
        (pySplitlines (fs.foldl (fun s r => r.sub s) text)) = true
    · rw [if_pos hall]
      obtain ⟨st', hok⟩ := foldlM_allBanner opts _ (initState root) hall
      simp only [load_from_string, hfs]
      rw [hok]
      cases hib : st'.in_banner with
      | false => exact Or.inl ⟨st'.tree, by simp [hib]⟩
      | true => exact Or.inr (by simp [hib])
    · have hall' : allBannerLines (projBanner (initState root))
          (pySplitlines (fs.foldl (fun s r => r.sub s) text)) = false := by
        revert hall
        cases allBannerLines (projBanner (initState root))
          (pySplitlines (fs.foldl (fun s r => r.sub s) text)) <;> simp
      rw [if_neg (by simp [hall'])]
      have herr := foldlM_missing_per opts hper _ (initState root) hall'
      simp only [load_from_string, hfs]
      rw [herr]
  · intro opts fs subs root text hfs hper hia
    by_cases hr : reachesIndentAdjust subs (projBanner (initState root))
        (pySplitlines (fs.foldl (fun s r => r.sub s) text)) = true
    · rw [if_pos hr]
      have herr := foldlM_missing_indent opts subs hper hia _ (initState root) hr
      simp only [load_from_string, hfs]
      rw [herr]
    · have hr' : reachesIndentAdjust subs (projBanner (initState root))
          (pySplitlines (fs.foldl (fun s r => r.sub s) text)) = false := by
        revert hr
        cases reachesIndentAdjust subs (projBanner (initState root))
          (pySplitlines (fs.foldl (fun s r => r.sub s) text)) <;> simp
      rw [if_neg (by simp [hr'])]
      obtain ⟨st', hok⟩ := foldlM_indent_unneeded opts subs hper _ (initState root) hr'
      simp only [load_from_string, hfs]
      rw [hok]
      cases hib : st'.in_banner with
      | false => exact Or.inl ⟨st'.tree, by simp [hib]⟩
      | true => exact Or.inr (by simp [hib])

/-- Witness for C9: missing `full_text_sub` fails on a plain input; missing
`per_line_sub` fails even on a blank-lines-only input (which never reaches a
non-empty post-substitution line); missing `indent_adjust` fails exactly at
the first normal line that stays non-empty after substitution, after skipping
a whitespace-only one. -/
theorem options_key_laziness_witness :
    load_from_string { emptyOptions with full_text_sub := none } emptyRoot "hostname r1" =
      .error (.missingKey "full_text_sub") ∧
    load_from_string { emptyOptions with per_line_sub := none } emptyRoot "\n\n" =
      .error (.missingKey "per_line_sub") ∧
    load_from_string { emptyOptions with indent_adjust := none } emptyRoot " \nhostname r1" =
      .error (.missingKey "indent_adjust") := by
  refine ⟨?_, ?_, ?_⟩
  · exact options_key_laziness.1 _ emptyRoot "hostname r1" rfl
  · exact options_key_laziness.2.2.1 { emptyOptions with per_line_sub := none } []
      emptyRoot "\n\n" rfl rfl
  · exact options_key_laziness.2.2.2 { emptyOptions with indent_adjust := none } [] []
      emptyRoot " \nhostname r1" rfl rfl rfl

/-- C10: while inside a banner, a line of exactly `!` terminates the banner and
is excluded from the stored text, while lines of exactly `EOF` or `%` terminate
the banner and are included as the stored text's last line. -/
theorem banner_terminator_lines (opts : Options) (st : PState)
    (hib : st.in_banner = true) :
    (st.banner_end_lines.contains "!" = true →
       parseLine opts st "!" = .ok { st with
         tree := addChildAt st.tree [] (bannerNode (joinNL st.temp_banner)),
         in_banner := false, most_recent_item := newChildPath st.tree [],
         current_section := [], temp_banner := [] }) ∧
    (st.banner_end_lines.contains "EOF" = true →
       parseLine opts st "EOF" = .ok { st with
         tree := addChildAt st.tree [] (bannerNode (joinNL (st.temp_banner ++ ["EOF"]))),
         in_banner := false, most_recent_item := newChildPath st.tree [],
         current_section := [], temp_banner := [] }) ∧
    (st.banner_end_lines.contains "%" = true →
       parseLine opts st "%" = .ok { st with
         tree := addChildAt st.tree [] (bannerNode (joinNL (st.temp_banner ++ ["%"]))),
         in_banner := false, most_recent_item := newChildPath st.tree [],
         current_section := [], temp_banner := [] }) := by
  refine ⟨?_, ?_, ?_⟩
  · intro hmem
    have hend : end_of_banner_test st.banner_end_lines st.banner_end_contains "!"
        = true := by rw [end_of_banner_test, hmem]; simp +decide
    rw [parseLine]; simp +decide [hib, hend]
  · intro hmem
    have hend : end_of_banner_test st.banner_end_lines st.banner_end_contains "EOF"
        = true := by rw [end_of_banner_test, hmem]; simp +decide
    rw [parseLine]; simp +decide [hib, hend]
  · intro hmem
    have hend : end_of_banner_test st.banner_end_lines st.banner_end_contains "%"
        = true := by rw [end_of_banner_test, hmem]; simp +decide
    rw [parseLine]; simp +decide [hib, hend]

theorem banner_terminator_lines_witness :
    parseLine emptyOptions
      { initState emptyRoot with
        in_banner := true, temp_banner := ["banner motd ^C", "hello"] } "!" =
    .ok { initState emptyRoot with
          tree := addChildAt (initState emptyRoot).tree []
            (bannerNode "banner motd ^C\nhello"),
          in_banner := false,
          most_recent_item := newChildPath (initState emptyRoot).tree [],
          current_section := [], temp_banner := [] } :=
  (banner_terminator_lines emptyOptions
    { initState emptyRoot with
      in_banner := true, temp_banner := ["banner motd ^C", "hello"] } rfl).1 rfl

/-! ## Lemmas about trees, traversals and the serializer -/

theorem getq_append_left {α : Type} (l₁ l₂ : List α) (n : Nat) (h : n < l₁.length) :
    (l₁ ++ l₂).get? n = l₁.get? n := by
  induction l₁ generalizing n with
  | nil => simp at h
  | cons a as ih =>
    cases n with
    | zero => rfl
    | succ m => simpa using ih m (by simpa using h)

theorem getq_append_length {α : Type} (l : List α) (x : α) :
    (l ++ [x]).get? l.length = some x := by
  induction l with
  | nil => rfl
  | cons a as ih => simpa using ih

theorem modifyIdx_get? {α : Type} (f : α → α) (l : List α) (i j : Nat) :
    (modifyIdx f i l).get? j = if j = i then (l.get? j).map f else l.get? j := by
  induction l generalizing i j with
  | nil => cases i <;> cases j <;> simp [modifyIdx]
  | cons a as ih =>
    cases i with
    | zero => cases j with
      | zero => simp [modifyIdx]
      | succ m => simp [modifyIdx]
    | succ n => cases j with
      | zero => simp [modifyIdx]
      | succ m =>
        simp only [modifyIdx, List.get?_cons_succ, ih]
        by_cases h : m = n
        · simp [h]
        · simp [h, Nat.succ_ne_succ]

theorem modifyIdx_length {α : Type} (f : α → α) (l : List α) (i : Nat) :
    (modifyIdx f i l).length = l.length := by
  induction l generalizing i with
  | nil => cases i <;> rfl
  | cons a as ih => cases i with
    | zero => rfl
    | succ n => simpa [modifyIdx] using ih n

theorem getNode?_cons (d : NodeData) (cs : List HC) (i : Nat) (rest : Path) :
    getNode? (HC.mk d cs) (i :: rest) =
      match cs.get? i with
      | some c => getNode? c rest
      | none => none := rfl

theorem addChildAt_nil (t : HC) (n : HC) :
    addChildAt t [] n = HC.mk t.data (t.children ++ [n]) := by
  cases t; rfl

theorem addChildAt_cons (d : NodeData) (cs : List HC) (i : Nat) (rest : Path) (n : HC) :
    addChildAt (HC.mk d cs) (i :: rest) n =
      HC.mk d (modifyIdx (fun c => addChildAt c rest n) i cs) := rfl

theorem validPath_cons (d : NodeData) (cs : List HC) (j : Nat) (qrest : Path) :
    validPath (HC.mk d cs) (j :: qrest) = true ↔
      ∃ c, cs.get? j = some c ∧ validPath c qrest = true := by
  simp only [validPath, getNode?_cons]
  cases h : cs.get? j with
  | some c => simp [validPath]
  | none => simp

theorem get?_lt_length {α : Type} {l : List α} {j : Nat} {c : α} (h : l.get? j = some c) :
    j < l.length := by
  by_contra hge
  rw [List.get?_eq_none.mpr (by omega)] at h
  exact Option.noConfusion h

/-- Appending a child anywhere leaves the payload of every already-valid path
unchanged. -/
theorem dataAt?_addChildAt (p : Path) (t : HC) (x : HC) (q : Path)
    (hv : validPath t q = true) :
    dataAt? (addChildAt t p x) q = dataAt? t q := by
  induction p generalizing t q with
  | nil =>
    cases t with
    | mk d cs =>
      rw [addChildAt_nil]
      cases q with
      | nil => rfl
      | cons j qrest =>
        simp only [dataAt?, getNode?_cons]
        obtain ⟨c, hc, _⟩ := (validPath_cons d cs j qrest).mp hv
        simp only [HC.children]
        rw [getq_append_left cs [x] j (get?_lt_length hc)]
  | cons i prest ih =>
    cases t with
    | mk d cs =>
      rw [addChildAt_cons]
      cases q with
      | nil => rfl
      | cons j qrest =>
        simp only [dataAt?, getNode?_cons, modifyIdx_get?]
        by_cases hji : j = i
        · subst hji
          obtain ⟨c, hc, hvc⟩ := (validPath_cons d cs j qrest).mp hv
          simp only [if_pos rfl, hc, Option.map_some']
          exact ih c qrest hvc
        · simp [hji]

theorem preorderF_nil (p : Path) (i : Nat) : preorderF p i [] = [] := by
  simp [preorderF]

theorem preorderF_cons (p : Path) (i : Nat) (d : NodeData) (cs : List HC) (rest : List HC) :
    preorderF p i (HC.mk d cs :: rest) =
      (p ++ [i]) :: (preorderF (p ++ [i]) 0 cs ++ preorderF p (i + 1) rest) := by
  simp [preorderF]

theorem preorderF_append (p : Path) (i : Nat) (xs ys : List HC) :
    preorderF p i (xs ++ ys) = preorderF p i xs ++ preorderF p (i + xs.length) ys := by
  induction xs generalizing i with
  | nil => simp [preorderF_nil]
  | cons c crest ih =>
    cases c with
    | mk d cs =>
      rw [List.cons_append, preorderF_cons, preorderF_cons, ih]
      simp only [List.length_cons, List.cons_append, List.append_assoc]
      have : i + 1 + crest.length = i + (crest.length + 1) := by omega
      rw [this]

theorem modifyIdx_concat_at {α : Type} (f : α → α) (xs : List α) (c : α) (ys : List α) :
    modifyIdx f xs.length (xs ++ c :: ys) = xs ++ f c :: ys := by
  induction xs with
  | nil => rfl
  | cons a as ih => simpa [modifyIdx] using ih

/-- Decompose a list at a valid last index. -/
theorem eq_take_concat_of_get?_last {α : Type} (l : List α) (i : Nat) (c : α)
    (hget : l.get? i = some c) (hlen : i + 1 = l.length) :
    l = l.take i ++ [c] ∧ (l.take i).length = i := by
  have hlt : i < l.length := get?_lt_length hget
  constructor
  · have h1 : l = l.take i ++ l.drop i := (List.take_append_drop i l).symm
    have hgetl : l[i] = c := by
      rw [List.get?_eq_getElem?, List.getElem?_eq_getElem hlt] at hget
      exact Option.some.inj hget
    have h2 : l.drop i = c :: l.drop (i + 1) := by
      rw [List.drop_eq_getElem_cons hlt, hgetl]
    have h3 : l.drop (i + 1) = [] := List.drop_of_length_le (by omega)
    rw [h2, h3] at h1
    exact h1
  · rw [List.length_take]
    omega

/-- Induction over forests of configuration nodes. -/
theorem forest_ind (motive : List HC → Prop) (h0 : motive [])
    (h1 : ∀ d cs rest, motive cs → motive rest → motive (HC.mk d cs :: rest)) :
    ∀ l, motive l := by
  have key : ∀ n l, sizeF l ≤ n → motive l := by
    intro n
    induction n with
    | zero =>
      intro l h
      match l with
      | [] => exact h0
      | .mk d cs :: rest => rw [sizeF_mk_cons] at h; omega
    | succ n ih =>
      intro l h
      match l with
      | [] => exact h0
      | .mk d cs :: rest =>
        rw [sizeF_mk_cons] at h
        exact h1 d cs rest (ih cs (by omega)) (ih rest (by omega))
  exact fun l => key (sizeF l) l le_rfl

theorem preorderF_single (pfx : Path) (j : Nat) (c : HC) :
    preorderF pfx j [c] = (pfx ++ [j]) :: preorderF (pfx ++ [j]) 0 c.children := by
  cases c with
  | mk d cs => rw [preorderF_cons, preorderF_nil, List.append_nil]; rfl

/-- Pre-order paths factor through the owner's path. -/
theorem preorderF_shift (cs : List HC) :
    ∀ (pfx : Path) (i : Nat),
      preorderF pfx i cs = (preorderF [] i cs).map (fun q => pfx ++ q) := by
  induction cs using forest_ind with
  | h0 => intro pfx i; simp [preorderF_nil]
  | h1 d cs rest ihcs ihrest =>
    intro pfx i
    rw [preorderF_cons, preorderF_cons]
    simp only [List.nil_append]
    rw [ihcs (pfx ++ [i]) 0, ihrest pfx (i + 1), ihcs [i] 0]
    simp [List.map_map, Function.comp_def, List.append_assoc]

theorem childCount_nil (d : NodeData) (cs : List HC) :
    childCount (HC.mk d cs) [] = cs.length := rfl

theorem childCount_cons (d : NodeData) (cs : List HC) (i : Nat) (rest : Path) (c : HC)
    (hc : cs.get? i = some c) :
    childCount (HC.mk d cs) (i :: rest) = childCount c rest := by
  show ((getNode? (HC.mk d cs) (i :: rest)).map (fun n => n.children.length)).getD 0 = _
  rw [getNode?_cons, hc]
  rfl

theorem allLast_cons (d : NodeData) (cs : List HC) (i : Nat) (rest : Path) :
    allLast (HC.mk d cs) (i :: rest) = true ↔
      ∃ c, cs.get? i = some c ∧ i + 1 = cs.length ∧ allLast c rest = true := by
  show (match cs.get? i with
    | some c => decide (i + 1 = cs.length) && allLast c rest
    | none => false) = true ↔ _
  cases h : cs.get? i with
  | some c => simp [h]
  | none => simp [h]

/-- Appending a leaf at an always-last path extends the pre-order listing at the
end, by exactly the new child's path. -/
theorem preorder_addLeaf (p : Path) (t : HC) (nd : NodeData)
    (h : allLast t p = true) :
    ∀ (pfx : Path),
      preorderF pfx 0 (addChildAt t p (.mk nd [])).children =
        preorderF pfx 0 t.children ++ [pfx ++ p ++ [childCount t p]] := by
  induction p generalizing t with
  | nil =>
    intro pfx
    cases t with
    | mk d cs =>
      rw [addChildAt_nil]
      show preorderF pfx 0 (cs ++ [HC.mk nd []]) = _
      rw [preorderF_append, preorderF_single]
      simp [preorderF_nil, childCount_nil, HC.children]
  | cons i rest ih =>
    intro pfx
    cases t with
    | mk d cs =>
      obtain ⟨c, hc, hlen, hal⟩ := (allLast_cons d cs i rest).mp h
      obtain ⟨hdec, htake⟩ := eq_take_concat_of_get?_last cs i c hc hlen
      set xs := cs.take i with hxs
      rw [addChildAt_cons]
      show preorderF pfx 0 (modifyIdx (fun x => addChildAt x rest (HC.mk nd [])) i cs) =
        preorderF pfx 0 cs ++ [pfx ++ (i :: rest) ++ [childCount (HC.mk d cs) (i :: rest)]]
      rw [childCount_cons d cs i rest c hc]
      rw [hdec, ← htake]
      rw [show xs ++ [c] = xs ++ c :: [] from rfl, modifyIdx_concat_at]
      rw [preorderF_append, preorderF_append, preorderF_single, preorderF_single]
      simp only [Nat.zero_add]
      rw [ih c hal (pfx ++ [xs.length])]
      simp [List.append_assoc, preorderF_nil, HC.children]

theorem allLast_valid (p : Path) (t : HC) (h : allLast t p = true) :
    validPath t p = true := by
  induction p generalizing t with
  | nil => rfl
  | cons i rest ih =>
    cases t with
    | mk d cs =>
      obtain ⟨c, hc, _, hal⟩ := (allLast_cons d cs i rest).mp h
      exact (validPath_cons d cs i rest).mpr ⟨c, hc, ih c hal⟩

theorem allLast_take (p : Path) (t : HC) (h : allLast t p = true) :
    ∀ k, allLast t (p.take k) = true := by
  induction p generalizing t with
  | nil => intro k; rw [List.take_nil]; exact h
  | cons i rest ih =>
    intro k
    cases t with
    | mk d cs =>
      obtain ⟨c, hc, hlen, hal⟩ := (allLast_cons d cs i rest).mp h
      cases k with
      | zero => rfl
      | succ k' =>
        rw [List.take_succ_cons]
        exact (allLast_cons d cs i (rest.take k')).mpr ⟨c, hc, hlen, ih c hal k'⟩

theorem getNode?_addChildAt_new (p : Path) (t : HC) (x : HC)
    (hv : validPath t p = true) :
    getNode? (addChildAt t p x) (p ++ [childCount t p]) = some x := by
  induction p generalizing t with
  | nil =>
    cases t with
    | mk d cs =>
      rw [addChildAt_nil]
      show getNode? (HC.mk d (cs ++ [x])) [cs.length] = some x
      rw [getNode?_cons, getq_append_length]
      rfl
  | cons i rest ih =>
    cases t with
    | mk d cs =>
      obtain ⟨c, hc, hvc⟩ := (validPath_cons d cs i rest).mp hv
      rw [addChildAt_cons]
      rw [show (i :: rest) ++ [childCount (HC.mk d cs) (i :: rest)] =
        i :: (rest ++ [childCount (HC.mk d cs) (i :: rest)]) from rfl]
      rw [getNode?_cons, modifyIdx_get?, if_pos rfl, hc]
      show getNode? (addChildAt c rest x) (rest ++ [childCount (HC.mk d cs) (i :: rest)]) = some x
      rw [childCount_cons d cs i rest c hc]
      exact ih c hvc

theorem allLast_addLeaf (p : Path) (t : HC) (nd : NodeData)
    (h : allLast t p = true) :
    allLast (addChildAt t p (.mk nd [])) (p ++ [childCount t p]) = true := by
  induction p generalizing t with
  | nil =>
    cases t with
    | mk d cs =>
      rw [addChildAt_nil]
      show allLast (HC.mk d (cs ++ [HC.mk nd []])) [cs.length] = true
      refine (allLast_cons d (cs ++ [HC.mk nd []]) cs.length [] ).mpr
        ⟨HC.mk nd [], getq_append_length cs _, by simp, rfl⟩
  | cons i rest ih =>
    cases t with
    | mk d cs =>
      obtain ⟨c, hc, hlen, hal⟩ := (allLast_cons d cs i rest).mp h
      rw [addChildAt_cons]
      rw [show (i :: rest) ++ [childCount (HC.mk d cs) (i :: rest)] =
        i :: (rest ++ [childCount (HC.mk d cs) (i :: rest)]) from rfl]
      refine (allLast_cons d _ i _).mpr ⟨addChildAt c rest (HC.mk nd []), ?_, ?_, ?_⟩
      · rw [modifyIdx_get?, if_pos rfl, hc]; rfl
      · rw [modifyIdx_length]; exact hlen
      · rw [childCount_cons d cs i rest c hc]
        exact ih c hal

theorem recordAt_congr (t₁ t₂ : HC) (q : Path) (h : dataAt? t₁ q = dataAt? t₂ q) :
    recordAt t₁ q = recordAt t₂ q := by
  have e : ∀ {α : Type} (f : NodeData → α) (dflt : α),
      ((getNode? t₁ q).map (fun n => f n.data)).getD dflt =
      ((getNode? t₂ q).map (fun n => f n.data)).getD dflt := by
    intro α f dflt
    have h1 : (getNode? t₁ q).map (fun n => f n.data) = (dataAt? t₁ q).map f := by
      rw [dataAt?, Option.map_map]; rfl
    have h2 : (getNode? t₂ q).map (fun n => f n.data) = (dataAt? t₂ q).map f := by
      rw [dataAt?, Option.map_map]; rfl
    rw [h1, h2, h]
  show DumpRec.mk _ _ _ _ _ = DumpRec.mk _ _ _ _ _
  rw [show textAt t₁ q = ((getNode? t₁ q).map (fun n => n.data.text)).getD "" from rfl,
      show textAt t₂ q = ((getNode? t₂ q).map (fun n => n.data.text)).getD "" from rfl]
  rw [e (fun nd => nd.text) "", e (fun nd => nd.tags) [], e (fun nd => nd.comments) [],
      e (fun nd => nd.new_in_config) false]

theorem preorder_valid_aux (cs : List HC) :
    ∀ (d : NodeData) (i0 : Nat) (q : Path) (full : List HC),
      q ∈ preorderF [] i0 cs →
      (∀ j, full.get? (i0 + j) = cs.get? j) →
      validPath (HC.mk d full) q = true := by
  induction cs using forest_ind with
  | h0 => intro d i0 q full hq; rw [preorderF_nil] at hq; exact absurd hq (List.not_mem_nil q)
  | h1 d0 cs0 rest ihcs ihrest =>
    intro d i0 q full hq hfull
    rw [preorderF_cons] at hq
    have hfull0 : full.get? i0 = some (HC.mk d0 cs0) := by
      have := hfull 0
      simpa using this
    rcases List.mem_cons.mp hq with hq0 | hq'
    · subst hq0
      exact (validPath_cons d full i0 []).mpr ⟨_, hfull0, rfl⟩
    · rcases List.mem_append.mp hq' with hin | hout
      · rw [preorderF_shift] at hin
        simp only [List.nil_append] at hin
        obtain ⟨q', hq'mem, hq'eq⟩ := List.mem_map.mp hin
        subst hq'eq
        refine (validPath_cons d full i0 q').mpr ⟨_, hfull0, ?_⟩
        exact ihcs d0 0 q' cs0 hq'mem (fun j => by simp)
      · refine ihrest d (i0 + 1) q full hout (fun j => ?_)
        have := hfull (j + 1)
        rw [show i0 + 1 + j = i0 + (j + 1) by omega]
        simpa using this

/-- Every pre-order path is a valid path of the tree. -/
theorem preorder_valid (t : HC) (q : Path) (hq : q ∈ preorderPaths t) :
    validPath t q = true := by
  cases t with
  | mk d cs =>
    exact preorder_valid_aux cs d 0 q cs hq (fun j => by simp)

/-- Appending a leaf at an always-last path appends exactly its record to the
per-node record list. -/
theorem nodeRecords_addLeaf (p : Path) (t : HC) (nd : NodeData)
    (h : allLast t p = true) :
    nodeRecords (addChildAt t p (.mk nd [])) =
      nodeRecords t ++
        [⟨p.length + 1, nd.text, nd.tags, nd.comments, nd.new_in_config⟩] := by
  show (preorderF [] 0 (addChildAt t p (.mk nd [])).children).map _ = _
  rw [preorder_addLeaf p t nd h []]
  rw [List.map_append]
  congr 1
  · apply List.map_congr_left
    intro q hq
    exact recordAt_congr _ _ q (dataAt?_addChildAt p t _ q (preorder_valid t q hq))
  · have hget : getNode? (addChildAt t p (.mk nd [])) (p ++ [childCount t p]) =
        some (.mk nd []) :=
      getNode?_addChildAt_new p t _ (allLast_valid p t h)
    simp only [List.map_cons, List.map_nil, List.nil_append]
    rw [show recordAt (addChildAt t p (.mk nd [])) (p ++ [childCount t p]) =
      ⟨(p ++ [childCount t p]).length,
        ((getNode? (addChildAt t p (.mk nd [])) (p ++ [childCount t p])).map
          (fun n => n.data.text)).getD "",
        ((getNode? (addChildAt t p (.mk nd [])) (p ++ [childCount t p])).map
          (fun n => n.data.tags)).getD [],
        ((getNode? (addChildAt t p (.mk nd [])) (p ++ [childCount t p])).map
          (fun n => n.data.comments)).getD [],
        ((getNode? (addChildAt t p (.mk nd [])) (p ++ [childCount t p])).map
          (fun n => n.data.new_in_config)).getD false⟩ from rfl]
    rw [hget]
    simp [HC.data]

theorem parentFor_valid (last : Path) (d : Nat) (h1 : 1 ≤ d) (h2 : d ≤ last.length + 1) :
    parentFor last d = .ok (last.take (d - 1)) := by
  unfold parentFor
  by_cases hd1 : d = 1
  · subst hd1
    simp
  · rw [if_neg hd1]
    by_cases hlen : last.length = d
    · rw [if_pos hlen]
      match last, hlen with
      | [], hlen => simp at hlen; omega
      | a :: as, hlen =>
        have : (a :: as).dropLast = (a :: as).take (d - 1) := by
          rw [List.dropLast_eq_take]
          congr 1
          simp at hlen ⊢
          omega
        rw [this]
    · rw [if_neg hlen]
      by_cases hsucc : last.length + 1 = d
      · rw [if_pos hsucc]
        have : last.take (d - 1) = last := by
          rw [show d - 1 = last.length by omega, List.take_length]
        rw [this]
      · rw [if_neg hsucc, if_neg (by omega)]
        have hlt : d - 2 < last.length := by omega
        rw [show (lineagePaths last).get? (d - 2) =
          ((List.range last.length).map (fun i => last.take (i + 1))).get? (d - 2) from rfl]
        rw [List.get?_map, List.get?_range hlt]
        show Except.ok (last.take (d - 2 + 1)) = _
        rw [show d - 2 + 1 = d - 1 by omega]

theorem loadStep_ok (t : HC) (last : Path) (r : DumpRec)
    (h1 : 1 ≤ r.depth) (h2 : r.depth ≤ last.length + 1) :
    loadStep t last r = .ok
      (addChildAt t (last.take (r.depth - 1)) (.mk (recData r) []),
       (last.take (r.depth - 1)) ++ [childCount t (last.take (r.depth - 1))]) := by
  rw [loadStep, parentFor_valid last r.depth h1 h2]
  rfl

theorem loadAux_valid :
    ∀ (ds : List DumpRec) (t : HC) (last : Path),
      validSeq last.length ds → allLast t last = true →
      (loadFromDumpAux t last ds).2 = none ∧
      nodeRecords (loadFromDumpAux t last ds).1 = nodeRecords t ++ ds := by
  intro ds
  induction ds with
  | nil => intro t last _ _; exact ⟨rfl, by simp [loadFromDumpAux]⟩
  | cons r rs ih =>
    intro t last hv hal
    obtain ⟨h1, h2, hrest⟩ := hv
    have htakelen : (last.take (r.depth - 1)).length = r.depth - 1 := by
      rw [List.length_take]; omega
    have halpar : allLast t (last.take (r.depth - 1)) = true :=
      allLast_take last t hal (r.depth - 1)
    have hstep := loadStep_ok t last r h1 h2
    have haux : loadFromDumpAux t last (r :: rs) =
        loadFromDumpAux (addChildAt t (last.take (r.depth - 1)) (.mk (recData r) []))
          ((last.take (r.depth - 1)) ++ [childCount t (last.take (r.depth - 1))]) rs := by
      show (match loadStep t last r with
        | .error e => (t, some e)
        | .ok (t', last') => loadFromDumpAux t' last' rs) = _
      rw [hstep]
    rw [haux]
    have hlen' : ((last.take (r.depth - 1)) ++
        [childCount t (last.take (r.depth - 1))]).length = r.depth := by
      simp [htakelen]; omega
    obtain ⟨he, hrec⟩ := ih _ _ (by rw [hlen']; exact hrest)
      (allLast_addLeaf (last.take (r.depth - 1)) t (recData r) halpar)
    refine ⟨he, ?_⟩
    rw [hrec, nodeRecords_addLeaf _ _ _ halpar]
    rw [List.append_assoc]
    congr 1
    rw [htakelen]
    rw [show r.depth - 1 + 1 = r.depth by omega]
    show [DumpRec.mk r.depth (recData r).text (recData r).tags (recData r).comments
      (recData r).new_in_config] ++ rs = r :: rs
    rw [show (recData r).text = r.text from rfl, show (recData r).tags = r.tags from rfl,
        show (recData r).comments = r.comments from rfl,
        show (recData r).new_in_config = r.new_in_config from rfl]
    cases r
    rfl

theorem sortedF_nil (p : Path) : sortedF p [] = [] := by simp [sortedF]

theorem sortedF_cons (p : Path) (i : Nat) (d : NodeData) (cs : List HC)
    (rest : List (Nat × HC)) :
    sortedF p ((i, HC.mk d cs) :: rest) =
      (p ++ [i]) :: (sortedF (p ++ [i]) (sortPairs cs.enum) ++ sortedF p rest) := by
  rw [sortedF]

theorem lenValid_mono (d d' : Nat) (xs : List Path) (h : lenValid d xs) (hd : d ≤ d') :
    lenValid d' xs := by
  cases xs with
  | nil => trivial
  | cons x xs' =>
    obtain ⟨h1, h2, h3⟩ := h
    exact ⟨h1, by omega, h3⟩

theorem endLen_cons (d : Nat) (x : Path) (xs : List Path) :
    endLen d (x :: xs) = endLen x.length xs := by
  cases xs with
  | nil => simp [endLen]
  | cons y ys =>
    obtain ⟨z, hz⟩ : ∃ z, (y :: ys).getLast? = some z := by
      cases h : (y :: ys).getLast? with
      | none => exact absurd h (by simp)
      | some z => exact ⟨z, rfl⟩
    show ((List.getLast? (x :: y :: ys)).map List.length).getD d = _
    rw [List.getLast?_cons_cons, hz]
    show z.length = ((List.getLast? (y :: ys)).map List.length).getD x.length
    rw [hz]
    rfl

theorem lenValid_append (xs : List Path) :
    ∀ (d : Nat) (ys : List Path), lenValid d xs → lenValid (endLen d xs) ys →
      lenValid d (xs ++ ys) := by
  induction xs with
  | nil => intro d ys _ h; simpa [endLen] using h
  | cons x xs' ih =>
    intro d ys h hy
    obtain ⟨h1, h2, h3⟩ := h
    rw [endLen_cons] at hy
    exact ⟨h1, h2, ih x.length ys h3 hy⟩

theorem endLen_ge (d m : Nat) (xs : List Path) (hxs : ∀ q ∈ xs, m ≤ q.length)
    (hd : m ≤ d) : m ≤ endLen d xs := by
  cases h : xs.getLast? with
  | none => simpa [endLen, h] using hd
  | some q =>
    have hq : q ∈ xs := by
      obtain ⟨hne, heq⟩ := List.mem_getLast?_eq_getLast
        (show q ∈ xs.getLast? by rw [h]; rfl)
      rw [heq]
      exact List.getLast_mem hne
    simpa [endLen, h] using hxs q hq

theorem sortedF_lenValid :
    ∀ (n : Nat) (l : List (Nat × HC)), sizeP l ≤ n → ∀ (pfx : Path) (d : Nat),
      pfx.length ≤ d →
      lenValid d (sortedF pfx l) ∧ ∀ q ∈ sortedF pfx l, pfx.length + 1 ≤ q.length := by
  intro n
  induction n with
  | zero =>
    intro l h pfx d hd
    match l with
    | [] => simp [sortedF_nil]; trivial
    | (i, .mk dd cs) :: rest =>
      rw [sizeP_cons, sizeF_mk_cons] at h; omega
  | succ n ih =>
    intro l h pfx d hd
    match l with
    | [] => simp [sortedF_nil]; trivial
    | (i, .mk dd cs) :: rest =>
      rw [sizeP_cons, sizeF_mk_cons] at h
      have hsz1 : sizeP (sortPairs cs.enum) ≤ n := by
        rw [sizeP_sortPairs, sizeP_enum]; omega
      have hsz2 : sizeP rest ≤ n := by omega
      obtain ⟨hv1, hm1⟩ := ih (sortPairs cs.enum) hsz1 (pfx ++ [i]) (pfx.length + 1)
        (by simp)
      obtain ⟨hv2g, hm2⟩ := ih rest hsz2 pfx (endLen (pfx.length + 1)
        (sortedF (pfx ++ [i]) (sortPairs cs.enum)))
        (endLen_ge (pfx.length + 1) pfx.length _
          (fun q hq => by have := hm1 q hq; simp at this ⊢; omega) (by omega))
      rw [sortedF_cons]
      constructor
      · refine ⟨by simp, by simp; omega, ?_⟩
        have hv1' : lenValid (pfx.length + 1)
            (sortedF (pfx ++ [i]) (sortPairs cs.enum)) := by
          have := hv1
          simpa using this
        rw [show (pfx ++ [i]).length = pfx.length + 1 by simp]
        exact lenValid_append _ (pfx.length + 1) _ hv1' hv2g
      · intro q hq
        rcases List.mem_cons.mp hq with h0 | h'
        · subst h0; simp
        · rcases List.mem_append.mp h' with ha | hb
          · have := hm1 q ha; simp at this; omega
          · exact hm2 q hb

theorem lenValid_validSeq (t : HC) :
    ∀ (qs : List Path) (d : Nat), lenValid d qs → validSeq d (qs.map (recordAt t)) := by
  intro qs
  induction qs with
  | nil => intro d _; trivial
  | cons q qs' ih =>
    intro d h
    obtain ⟨h1, h2, h3⟩ := h
    exact ⟨h1, h2, ih q.length h3⟩

theorem insertPair_perm (x : Nat × HC) (l : List (Nat × HC)) :
    (insertPair x l).Perm (x :: l) := by
  induction l with
  | nil => exact List.Perm.refl _
  | cons y ys ih =>
    rw [insertPair]
    split
    · exact List.Perm.refl _
    · exact (ih.cons y).trans (List.Perm.swap x y ys)

theorem sortPairs_perm (l : List (Nat × HC)) : (sortPairs l).Perm l := by
  induction l with
  | nil => exact List.Perm.refl _
  | cons x xs ih =>
    exact (insertPair_perm x (sortPairs xs)).trans (ih.cons x)

theorem sortedF_flatMap (pfx : Path) (l : List (Nat × HC)) :
    sortedF pfx l = l.flatMap (fun pr =>
      (pfx ++ [pr.1]) :: sortedF (pfx ++ [pr.1]) (sortPairs pr.2.children.enum)) := by
  induction l with
  | nil => rw [sortedF_nil, List.flatMap_nil]
  | cons x rest ih =>
    match x with
    | (i, .mk d cs) =>
      rw [sortedF_cons, List.flatMap_cons, ih]
      rfl

theorem preorderF_flatMap (cs : List HC) :
    ∀ (pfx : Path) (i : Nat),
      preorderF pfx i cs = (cs.enumFrom i).flatMap (fun pr =>
        (pfx ++ [pr.1]) :: preorderF (pfx ++ [pr.1]) 0 pr.2.children) := by
  induction cs with
  | nil => intro pfx i; rw [preorderF_nil]; rfl
  | cons c rest ih =>
    intro pfx i
    match c with
    | .mk d cs0 =>
      rw [preorderF_cons, List.enumFrom_cons, List.flatMap_cons, ih pfx (i + 1)]
      rfl

theorem sizeF_lt_of_mem (c : HC) (cs : List HC) (h : c ∈ cs) :
    sizeF c.children < sizeF cs := by
  induction cs with
  | nil => exact absurd h (List.not_mem_nil c)
  | cons a rest ih =>
    rcases List.mem_cons.mp h with h0 | h'
    · subst h0
      cases c with
      | mk d cs0 => rw [sizeF_mk_cons]; show sizeF cs0 < _; omega
    · have := ih h'
      rw [sizeF_cons a rest]
      omega

/-- The sorted traversal is a permutation of the plain pre-order listing. -/
theorem sorted_perm_preorder :
    ∀ (n : Nat) (cs : List HC), sizeF cs ≤ n → ∀ (pfx : Path),
      (sortedF pfx (sortPairs cs.enum)).Perm (preorderF pfx 0 cs) := by
  intro n
  induction n with
  | zero =>
    intro cs h pfx
    match cs with
    | [] =>
      rw [show sortPairs (List.enum ([] : List HC)) = [] from rfl, sortedF_nil,
        preorderF_nil]
    | .mk d cs0 :: rest => rw [sizeF_mk_cons] at h; omega
  | succ n ih =>
    intro cs h pfx
    rw [sortedF_flatMap, preorderF_flatMap]
    have h1 : ((sortPairs cs.enum).flatMap (fun pr =>
        (pfx ++ [pr.1]) :: sortedF (pfx ++ [pr.1]) (sortPairs pr.2.children.enum))).Perm
        ((cs.enum).flatMap (fun pr =>
        (pfx ++ [pr.1]) :: sortedF (pfx ++ [pr.1]) (sortPairs pr.2.children.enum))) :=
      (sortPairs_perm cs.enum).flatMap_right _
    refine h1.trans ?_
    rw [show cs.enum = cs.enumFrom 0 from rfl]
    apply List.Perm.flatMap_left
    intro pr hpr
    have hmem : pr.2 ∈ cs := by
      have hget : cs[pr.1]? = some pr.2 := List.mem_enum_iff_getElem?.mp hpr
      rw [← List.get?_eq_getElem?] at hget
      exact List.get?_mem hget
    have hsz : sizeF pr.2.children ≤ n := by
      have := sizeF_lt_of_mem pr.2 cs hmem
      omega
    exact (ih pr.2.children hsz (pfx ++ [pr.1])).cons _

theorem parentFor_malformed (last : Path) (d : Nat)
    (h : d = 0 ∨ d > last.length + 1) :
    ∃ e, parentFor last d = .error e := by
  rcases h with h0 | hbig
  · subst h0
    match last with
    | [] => exact ⟨.attrError, rfl⟩
    | a :: as => exact ⟨.valueError, rfl⟩
  · refine ⟨.stopIteration, ?_⟩
    unfold parentFor
    rw [if_neg (by omega), if_neg (by omega), if_neg (by omega), if_neg (by omega)]
    have hlen : (lineagePaths last).length = last.length := by
      simp [lineagePaths]
    rw [List.get?_eq_none.mpr (by rw [hlen]; omega)]

theorem loadStep_malformed (t : HC) (last : Path) (r : DumpRec)
    (h : r.depth = 0 ∨ r.depth > last.length + 1) :
    ∃ e, loadStep t last r = .error e := by
  obtain ⟨e, he⟩ := parentFor_malformed last r.depth h
  exact ⟨e, by rw [loadStep, he]⟩

theorem malformedRel_cons (d₀ : Nat) (r : DumpRec) (rs : List DumpRec) (k : Nat) :
    malformedRel d₀ (r :: rs) (k + 1) = malformedRel r.depth rs k := by
  cases k with
  | zero => simp [malformedRel, prevDepth]
  | succ k' => simp [malformedRel, prevDepth]

theorem malformedRel_zero_false (d₀ : Nat) (r : DumpRec) (rs : List DumpRec)
    (h : malformedRel d₀ (r :: rs) 0 = false) :
    1 ≤ r.depth ∧ r.depth ≤ d₀ + 1 := by
  simp [malformedRel, prevDepth] at h
  omega

theorem malformedRel_zero_true (d₀ : Nat) (r : DumpRec) (rs : List DumpRec)
    (h : malformedRel d₀ (r :: rs) 0 = true) :
    r.depth = 0 ∨ r.depth > d₀ + 1 := by
  simp [malformedRel, prevDepth] at h
  omega

theorem loadAux_malformed :
    ∀ (ds : List DumpRec) (j : Nat) (t : HC) (last : Path),
      (∀ k, k < j → malformedRel last.length ds k = false) →
      malformedRel last.length ds j = true →
      ∃ e, loadFromDumpAux t last ds =
          ((loadFromDumpAux t last (ds.take j)).1, some e) ∧
        (loadFromDumpAux t last (ds.take j)).2 = none := by
  intro ds
  induction ds with
  | nil =>
    intro j t last _ hbad
    simp [malformedRel] at hbad
  | cons r rs ih =>
    intro j t last hgood hbad
    cases j with
    | zero =>
      obtain ⟨e, he⟩ := loadStep_malformed t last r
        (malformedRel_zero_true last.length r rs hbad)
      refine ⟨e, ?_, rfl⟩
      show (match loadStep t last r with
        | .error e => (t, some e)
        | .ok (t', last') => loadFromDumpAux t' last' rs) = _
      rw [he]
      rfl
    | succ j' =>
      have h0 := hgood 0 (by omega)
      obtain ⟨h1, h2⟩ := malformedRel_zero_false last.length r rs h0
      have hstep := loadStep_ok t last r h1 h2
      have hlen' : ((last.take (r.depth - 1)) ++
          [childCount t (last.take (r.depth - 1))]).length = r.depth := by
        rw [List.length_append, List.length_take]
        simp
        omega
      have hgood' : ∀ k, k < j' →
          malformedRel ((last.take (r.depth - 1)) ++
            [childCount t (last.take (r.depth - 1))]).length rs k = false := by
        intro k hk
        rw [hlen']
        rw [← malformedRel_cons last.length r rs k]
        exact hgood (k + 1) (by omega)
      have hbad' : malformedRel ((last.take (r.depth - 1)) ++
          [childCount t (last.take (r.depth - 1))]).length rs j' = true := by
        rw [hlen']
        rw [← malformedRel_cons last.length r rs j']
        exact hbad
      obtain ⟨e, heq, hnone⟩ := ih j' (addChildAt t (last.take (r.depth - 1))
        (.mk (recData r) []))
        ((last.take (r.depth - 1)) ++ [childCount t (last.take (r.depth - 1))])
        hgood' hbad'
      refine ⟨e, ?_, ?_⟩
      · show (match loadStep t last r with
          | .error e => (t, some e)
          | .ok (t', last') => loadFromDumpAux t' last' rs) = _
        rw [hstep]
        rw [List.take_succ_cons]
        rw [show loadFromDumpAux t last (r :: rs.take j') =
          (match loadStep t last r with
            | .error e => (t, some e)
            | .ok (t', last') => loadFromDumpAux t' last' (rs.take j')) from rfl]
        rw [hstep]
        exact heq
      · rw [List.take_succ_cons]
        rw [show loadFromDumpAux t last (r :: rs.take j') =
          (match loadStep t last r with
            | .error e => (t, some e)
            | .ok (t', last') => loadFromDumpAux t' last' (rs.take j')) from rfl]
        rw [hstep]
        exact hnone

/-- C1: loading the dump of any tree (no lineage rules) succeeds and rebuilds a
tree whose full per-node record list (depth, text, tags, comments,
new_in_config), one record per node/path, is a permutation of the original
tree's. -/
theorem dump_load_round_trip (t : HC) :
    (load_from_dump (dump t)).2 = none ∧
    (nodeRecords (load_from_dump (dump t)).1).Perm (nodeRecords t) := by
  have hlv : lenValid 0 (all_children_sorted t) :=
    (sortedF_lenValid (sizeP (sortPairs t.children.enum)) _ le_rfl [] 0 (by simp)).1
  have hv : validSeq 0 (dump t) := lenValid_validSeq t _ 0 hlv
  obtain ⟨he, hrec⟩ := loadAux_valid (dump t) emptyRoot [] hv rfl
  refine ⟨he, ?_⟩
  show (nodeRecords (loadFromDumpAux emptyRoot [] (dump t)).1).Perm (nodeRecords t)
  rw [hrec]
  rw [show nodeRecords emptyRoot = [] by
    simp [nodeRecords, preorderPaths, emptyRoot, HC.children, preorderF_nil]]
  rw [List.nil_append]
  exact (sorted_perm_preorder (sizeF t.children) t.children le_rfl []).map (recordAt t)

/-- C5: on the first malformed record (depth 0, or a depth jump forward by more
than one over the previous record), load_from_dump stops with an error and the
tree holds exactly the nodes of the records before it — the malformed record's
node is never attached to any parent. -/
theorem malformed_record_fails_fast (ds : List DumpRec) (j : Nat)
    (hgood : ∀ k, k < j → malformedAt ds k = false)
    (hbad : malformedAt ds j = true) :
    ∃ e, load_from_dump ds = ((load_from_dump (ds.take j)).1, some e) ∧
      (load_from_dump (ds.take j)).2 = none :=
  loadAux_malformed ds j emptyRoot [] hgood hbad

theorem malformed_record_fails_fast_witness :
    (∀ k, k < 1 → malformedAt
      [⟨1, "a", [], [], false⟩, ⟨3, "b", [], [], false⟩] k = false) ∧
    malformedAt [⟨1, "a", [], [], false⟩, ⟨3, "b", [], [], false⟩] 1 = true ∧
    ∃ e, load_from_dump [⟨1, "a", [], [], false⟩, ⟨3, "b", [], [], false⟩] =
        ((load_from_dump ([⟨1, "a", [], [], false⟩,
          ⟨3, "b", [], [], false⟩].take 1)).1, some e) ∧
      (load_from_dump ([⟨1, "a", [], [], false⟩,
        ⟨3, "b", [], [], false⟩].take 1)).2 = none :=
  ⟨by decide, by decide,
   malformed_record_fails_fast _ 1 (by decide) (by decide)⟩


/-- C7: evaluating `_remove_acl_remarks` on an access-list block with two
consecutive remark children shows the removal loop skipping the second remark
(Python's remove-inside-iteration), so a remark child survives, contradicting
"drop remark children entirely". -/
theorem remove_acl_remarks_skips_consecutive :
    _remove_acl_remarks aclExampleTree = aclExampleResult ∧
    pyStartsWith "remark" (textAt (_remove_acl_remarks aclExampleTree) [0, 0]) = true :=
  ⟨rfl, by decide⟩

/-! ## Lemmas about the filtered traversal -/

theorem lineagePaths_eq_strict (c : Path) (h : c ≠ []) :
    lineagePaths c = strictAncestors c ++ [c] := by
  have hlen : c.length = (c.length - 1) + 1 := by
    cases c with
    | nil => exact absurd rfl h
    | cons a as => simp
  show (List.range c.length).map (fun i => c.take (i + 1)) = _
  rw [hlen, List.range_succ, List.map_append]
  congr 1
  simp only [List.map_cons, List.map_nil]
  rw [← hlen, List.take_length]

theorem strictAncestors_mem (c a : Path) (ha : a ∈ strictAncestors c) :
    ∃ k, k < c.length - 1 ∧ a = c.take (k + 1) := by
  obtain ⟨k, hk, hak⟩ := List.mem_map.mp ha
  exact ⟨k, List.mem_range.mp hk, hak.symm⟩

theorem strictAncestors_length (c a : Path) (ha : a ∈ strictAncestors c) :
    a.length < c.length ∧ a.length ≥ 1 := by
  obtain ⟨k, hk, hak⟩ := strictAncestors_mem c a ha
  subst hak
  rw [List.length_take]
  omega

def AncOrdered : List Path → Prop
  | [] => True
  | c :: rest => (∀ a ∈ strictAncestors c, a ∉ rest) ∧ AncOrdered rest

theorem ancOrdered_append (xs : List Path) :
    ∀ (ys : List Path), AncOrdered xs → AncOrdered ys →
      (∀ c ∈ xs, ∀ a ∈ strictAncestors c, a ∉ ys) → AncOrdered (xs ++ ys) := by
  induction xs with
  | nil => intro ys _ hy _; simpa using hy
  | cons c rest ih =>
    intro ys hx hy hcross
    obtain ⟨h1, h2⟩ := hx
    refine ⟨?_, ih ys h2 hy (fun c' hc' => hcross c' (List.mem_cons_of_mem c hc'))⟩
    intro a ha hmem
    rcases List.mem_append.mp hmem with hin | hout
    · exact h1 a ha hin
    · exact hcross c (List.mem_cons_self c rest) a ha hout

theorem sortedF_min_length (l : List (Nat × HC)) (pfx : Path) (q : Path)
    (hq : q ∈ sortedF pfx l) : pfx.length + 1 ≤ q.length :=
  (sortedF_lenValid (sizeP l) l le_rfl pfx pfx.length le_rfl).2 q hq

theorem take_take_of_le {α : Type} (q : List α) (a b : Nat) (h : a ≤ b) :
    (q.take b).take a = q.take a := by
  rw [List.take_take, Nat.min_eq_left h]

theorem take_append_self {α : Type} (pfx : List α) (x : α) :
    (pfx ++ [x]).take (pfx.length + 1) = pfx ++ [x] := by
  rw [show pfx.length + 1 = (pfx ++ [x]).length by simp, List.take_length]

theorem sortedF_take :
    ∀ (n : Nat) (l : List (Nat × HC)), sizeP l ≤ n → ∀ (pfx : Path) (q : Path),
      q ∈ sortedF pfx l →
      ∃ pr, pr ∈ l ∧ q.take (pfx.length + 1) = pfx ++ [pr.1] := by
  intro n
  induction n with
  | zero =>
    intro l h pfx q hq
    match l with
    | [] => rw [sortedF_nil] at hq; exact absurd hq (List.not_mem_nil q)
    | (i, .mk dd cs) :: rest => rw [sizeP_cons, sizeF_mk_cons] at h; omega
  | succ n ih =>
    intro l h pfx q hq
    match l with
    | [] => rw [sortedF_nil] at hq; exact absurd hq (List.not_mem_nil q)
    | (i, .mk dd cs) :: rest =>
      rw [sizeP_cons, sizeF_mk_cons] at h
      rw [sortedF_cons] at hq
      rcases List.mem_cons.mp hq with h0 | h'
      · refine ⟨(i, .mk dd cs), List.mem_cons_self _ _, ?_⟩
        subst h0
        exact take_append_self pfx i
      · rcases List.mem_append.mp h' with hin | hout
        · obtain ⟨pr, _, hpr⟩ := ih (sortPairs cs.enum)
            (by rw [sizeP_sortPairs, sizeP_enum]; omega) (pfx ++ [i]) q hin
          refine ⟨(i, .mk dd cs), List.mem_cons_self _ _, ?_⟩
          rw [show q.take (pfx.length + 1) =
              (q.take ((pfx ++ [i]).length + 1)).take (pfx.length + 1) from
            (take_take_of_le q _ _ (by simp)).symm]
          rw [hpr]
          rw [show pfx.length + 1 = (pfx ++ [i]).length by simp]
          exact List.take_left _ _
        · obtain ⟨pr, hmem, hpr⟩ := ih rest (by omega) pfx q hout
          exact ⟨pr, List.mem_cons_of_mem _ hmem, hpr⟩

/-- Membership of the tail of a sorted-traversal cons block pins the first path
component after the owner's path. -/
theorem sortedF_take_outer (rest : List (Nat × HC)) (pfx : Path) (q : Path)
    (hq : q ∈ sortedF pfx rest) :
    ∃ pr, pr ∈ rest ∧ q.take (pfx.length + 1) = pfx ++ [pr.1] :=
  sortedF_take (sizeP rest) rest le_rfl pfx q hq

theorem sortedF_nodup :
    ∀ (n : Nat) (l : List (Nat × HC)), sizeP l ≤ n → ∀ (pfx : Path),
      (l.map Prod.fst).Nodup → (sortedF pfx l).Nodup := by
  intro n
  induction n with
  | zero =>
    intro l h pfx _
    match l with
    | [] => rw [sortedF_nil]; exact List.nodup_nil
    | (i, .mk dd cs) :: rest => rw [sizeP_cons, sizeF_mk_cons] at h; omega
  | succ n ih =>
    intro l h pfx hnd
    match l with
    | [] => rw [sortedF_nil]; exact List.nodup_nil
    | (i, .mk dd cs) :: rest =>
      rw [sizeP_cons, sizeF_mk_cons] at h
      rw [List.map_cons, List.nodup_cons] at hnd
      obtain ⟨hi, hndrest⟩ := hnd
      rw [sortedF_cons]
      have hinner_nd : (sortedF (pfx ++ [i]) (sortPairs cs.enum)).Nodup := by
        apply ih _ (by rw [sizeP_sortPairs, sizeP_enum]; omega)
        have hperm : ((sortPairs cs.enum).map Prod.fst).Perm ((cs.enum).map Prod.fst) :=
          (sortPairs_perm cs.enum).map Prod.fst
        rw [hperm.nodup_iff, List.enum_map_fst]
        exact List.nodup_range cs.length
      have houter_nd : (sortedF pfx rest).Nodup := ih rest (by omega) pfx hndrest
      have hfst : ∀ q ∈ sortedF pfx rest, q.take (pfx.length + 1) ≠ pfx ++ [i] := by
        intro q hq heq
        obtain ⟨pr, hprmem, hpr⟩ := sortedF_take_outer rest pfx q hq
        have heq2 : pfx ++ [pr.1] = pfx ++ [i] := by rw [← hpr, heq]
        have hpri : pr.1 = i := by
          simpa using List.append_inj_right heq2 rfl
        have : pr.1 ∈ rest.map Prod.fst := List.mem_map.mpr ⟨pr, hprmem, rfl⟩
        rw [hpri] at this
        exact hi this
      have hinner_take : ∀ q ∈ sortedF (pfx ++ [i]) (sortPairs cs.enum),
          q.take (pfx.length + 1) = pfx ++ [i] := by
        intro q hq
        obtain ⟨pr', _, hpr'⟩ := sortedF_take (sizeP (sortPairs cs.enum)) _ le_rfl
          (pfx ++ [i]) q hq
        rw [show q.take (pfx.length + 1) =
            (q.take ((pfx ++ [i]).length + 1)).take (pfx.length + 1) from
          (take_take_of_le q _ _ (by simp)).symm]
        rw [hpr']
        rw [show pfx.length + 1 = (pfx ++ [i]).length by simp]
        exact List.take_left _ _
      rw [List.nodup_cons]
      constructor
      · intro hmem
        rcases List.mem_append.mp hmem with hin | hout
        · have := sortedF_min_length _ _ _ hin
          simp at this
        · exact hfst _ hout (take_append_self pfx i)
      · apply List.Nodup.append hinner_nd houter_nd
        intro q hin hout
        exact hfst q hout (hinner_take q hin)

theorem sortedF_take_owner (lp : List (Nat × HC)) (pfx : Path) (i : Nat) (q : Path)
    (hq : q ∈ sortedF (pfx ++ [i]) lp) : q.take (pfx.length + 1) = pfx ++ [i] := by
  obtain ⟨pr', _, hpr'⟩ := sortedF_take (sizeP lp) lp le_rfl (pfx ++ [i]) q hq
  rw [show q.take (pfx.length + 1) =
      (q.take ((pfx ++ [i]).length + 1)).take (pfx.length + 1) from
    (take_take_of_le q _ _ (by simp)).symm]
  rw [hpr']
  rw [show pfx.length + 1 = (pfx ++ [i]).length by simp]
  exact List.take_left _ _

theorem sortedF_ancOrdered :
    ∀ (n : Nat) (l : List (Nat × HC)), sizeP l ≤ n → ∀ (pfx : Path),
      (l.map Prod.fst).Nodup → AncOrdered (sortedF pfx l) := by
  intro n
  induction n with
  | zero =>
    intro l h pfx _
    match l with
    | [] => rw [sortedF_nil]; trivial
    | (i, .mk dd cs) :: rest => rw [sizeP_cons, sizeF_mk_cons] at h; omega
  | succ n ih =>
    intro l h pfx hnd
    match l with
    | [] => rw [sortedF_nil]; trivial
    | (i, .mk dd cs) :: rest =>
      rw [sizeP_cons, sizeF_mk_cons] at h
      rw [List.map_cons, List.nodup_cons] at hnd
      obtain ⟨hi, hndrest⟩ := hnd
      rw [sortedF_cons]
      have hinner_ao : AncOrdered (sortedF (pfx ++ [i]) (sortPairs cs.enum)) := by
        apply ih _ (by rw [sizeP_sortPairs, sizeP_enum]; omega)
        have hperm : ((sortPairs cs.enum).map Prod.fst).Perm ((cs.enum).map Prod.fst) :=
          (sortPairs_perm cs.enum).map Prod.fst
        rw [hperm.nodup_iff, List.enum_map_fst]
        exact List.nodup_range cs.length
      have houter_ao : AncOrdered (sortedF pfx rest) := ih rest (by omega) pfx hndrest
      show (∀ a ∈ strictAncestors (pfx ++ [i]), a ∉ _) ∧ AncOrdered _
      constructor
      · intro a ha hmem
        have hlt : a.length < (pfx ++ [i]).length := (strictAncestors_length _ a ha).1
        simp only [List.length_append, List.length_cons, List.length_nil] at hlt
        rcases List.mem_append.mp hmem with hin | hout
        · have := sortedF_min_length _ _ _ hin
          simp at this
          omega
        · have := sortedF_min_length _ _ _ hout
          omega
      · apply ancOrdered_append _ _ hinner_ao houter_ao
        intro c hc a ha hout
        obtain ⟨k, hk, hak⟩ := strictAncestors_mem c a ha
        have halen : a.length = k + 1 := by
          subst hak
          rw [List.length_take]
          omega
        have hamin := sortedF_min_length _ _ _ hout
        obtain ⟨pr, hprmem, hpr⟩ := sortedF_take_outer rest pfx a hout
        have hatake : a.take (pfx.length + 1) = pfx ++ [i] := by
          subst hak
          rw [take_take_of_le c _ _ (by omega)]
          exact sortedF_take_owner _ pfx i c hc
        rw [hatake] at hpr
        have : pr.1 = i := by
          simpa using List.append_inj_right hpr.symm rfl
        have hmem2 : pr.1 ∈ rest.map Prod.fst := List.mem_map.mpr ⟨pr, hprmem, rfl⟩
        rw [this] at hmem2
        exact hi hmem2

theorem contains_false_of_not_mem {α : Type} [BEq α] [LawfulBEq α] {a : α} {l : List α}
    (h : a ∉ l) : l.contains a = false := by
  cases hb : l.contains a
  · rfl
  · exact absurd (List.mem_of_elem_eq_true hb) h

theorem filteredGo_eq_spec (t : HC) (rules : List LineageRule) :
    ∀ (pass m y : List Path),
      pass.Nodup → AncOrdered pass →
      (∀ c ∈ pass, c ≠ []) →
      (∀ a ∈ m, a ∉ pass) → (∀ a ∈ y, a ∉ pass) →
      filteredGo t rules pass m y = filteredSpecGo t rules pass m y := by
  intro pass
  induction pass with
  | nil => intro m y _ _ _ _ _; rfl
  | cons c rest ih =>
    intro m y hnd hao hne hm hy
    have hcm : c ∉ m := fun hc => hm c hc (List.mem_cons_self c rest)
    have hcy : c ∉ y := fun hc => hy c hc (List.mem_cons_self c rest)
    obtain ⟨hndc, hndrest⟩ := List.nodup_cons.mp hnd
    obtain ⟨haoc, haorest⟩ := hao
    have hnec : c ≠ [] := hne c (List.mem_cons_self c rest)
    have hlc := lineagePaths_eq_strict c hnec
    have hcond : (lineagePaths c).any (fun a => m.contains a) =
        (strictAncestors c).any (fun a => m.contains a) := by
      rw [hlc, List.any_append]
      simp only [List.any_cons, List.any_nil, Bool.or_false]
      rw [contains_false_of_not_mem hcm, Bool.or_false]
    have hm' : ∀ a ∈ m, a ∉ rest := fun a ha hr => hm a ha (List.mem_cons_of_mem c hr)
    have hy' : ∀ a ∈ y, a ∉ rest := fun a ha hr => hy a ha (List.mem_cons_of_mem c hr)
    have hne' : ∀ a ∈ rest, a ≠ [] := fun a ha => hne a (List.mem_cons_of_mem c ha)
    rw [filteredGo, filteredSpecGo, hcond]
    by_cases hanc : (strictAncestors c).any (fun a => m.contains a) = true
    · rw [if_pos hanc, if_pos hanc]
      congr 1
      apply ih m (c :: y) hndrest haorest hne' hm'
      intro a ha
      rcases List.mem_cons.mp ha with h0 | h1
      · subst h0; exact hndc
      · exact hy' a h1
    · rw [if_neg hanc, if_neg hanc]
      have hfilter : (lineagePaths c).filter (fun a => !(y.contains a)) =
          (strictAncestors c).filter (fun a => !(y.contains a)) ++ [c] := by
        rw [hlc, List.filter_append]
        congr 1
        simp only [List.filter_cons, List.filter_nil]
        rw [contains_false_of_not_mem hcy]
        rfl
      cases hfind : rules.find? (fun r => lineage_test t c r false) with
      | some r =>
        show (lineagePaths c).filter (fun a => !(y.contains a)) ++
            filteredGo t rules rest (c :: m)
              ((lineagePaths c).filter (fun a => !(y.contains a)) ++ y) =
          ((strictAncestors c).filter (fun a => !(y.contains a)) ++ [c]) ++
            filteredSpecGo t rules rest (c :: m)
              (((strictAncestors c).filter (fun a => !(y.contains a)) ++ [c]) ++ y)
        rw [hfilter]
        congr 1
        apply ih (c :: m)
          (((strictAncestors c).filter (fun a => !(y.contains a)) ++ [c]) ++ y)
          hndrest haorest hne'
        · intro a ha
          rcases List.mem_cons.mp ha with h0 | h1
          · subst h0; exact hndc
          · exact hm' a h1
        · intro a ha
          rcases List.mem_append.mp ha with h1 | h2
          · rcases List.mem_append.mp h1 with h3 | h4
            · exact haoc a (List.mem_of_mem_filter h3)
            · rw [List.mem_singleton.mp h4]; exact hndc
          · exact hy' a h2
      | none =>
        show filteredGo t rules rest m y = filteredSpecGo t rules rest m y
        exact ih m y hndrest haorest hne' hm' hy'

/-- C4: for every tree and rule list, the filtered traversal equals its
claim-side description: a single pass over the sorted sequence in which a node
with an already-matched ancestor is yielded, and on a node's first rule match
every not-yet-yielded strict ancestor is yielded immediately (nearest the root
first) with the matched node itself following on its own turn directly after
them, not earlier in the forced block. -/
theorem filtered_traversal_matches_description (t : HC) (rules : List LineageRule) :
    all_children_sorted_with_lineage_rules t rules = filteredSpec t rules := by
  have hndfst : ((sortPairs t.children.enum).map Prod.fst).Nodup := by
    have hperm : ((sortPairs t.children.enum).map Prod.fst).Perm
        ((t.children.enum).map Prod.fst) :=
      (sortPairs_perm t.children.enum).map Prod.fst
    rw [hperm.nodup_iff, List.enum_map_fst]
    exact List.nodup_range t.children.length
  apply filteredGo_eq_spec
  · exact sortedF_nodup (sizeP (sortPairs t.children.enum)) _ le_rfl [] hndfst
  · exact sortedF_ancOrdered (sizeP (sortPairs t.children.enum)) _ le_rfl [] hndfst
  · intro c hc
    have := sortedF_min_length _ _ _ hc
    intro h0
    subst h0
    simp at this
  · intro a ha
    exact absurd ha (List.not_mem_nil a)
  · intro a ha
    exact absurd ha (List.not_mem_nil a)

/-! ## Lemmas about sectional exiting (claim C6) -/

theorem pathPre_len {a q : Path} (h : pathPre a q) : a.length ≤ q.length := by
  have := congrArg List.length h
  simp only [List.length_take] at this
  omega

theorem pathPre_refl (a : Path) : pathPre a a := by
  simp [pathPre]

theorem pathPre_append (a s : Path) : pathPre a (a ++ s) := by
  simp [pathPre, List.take_append]

theorem pathPre_trans {a b q : Path} (h1 : pathPre a b) (h2 : pathPre b q) : pathPre a q := by
  unfold pathPre at *
  have hl : a.length ≤ b.length := by
    have := congrArg List.length h1
    simp only [List.length_take] at this
    omega
  calc q.take a.length = (q.take b.length).take a.length := by
        rw [List.take_take]; congr 1; omega
    _ = b.take a.length := by rw [h2]
    _ = a := h1

theorem pathPre_take {c q : Path} (h : pathPre c q) (m : Nat) (hm : m ≤ c.length) :
    q.take m = c.take m := by
  unfold pathPre at h
  calc q.take m = (q.take c.length).take m := by rw [List.take_take]; congr 1; omega
    _ = c.take m := by rw [h]

theorem pathPre_uniq {x y q : Path} (hx : pathPre x q) (hy : pathPre y q)
    (hl : x.length = y.length) : x = y := by
  unfold pathPre at hx hy
  rw [← hx, ← hy, hl]

theorem pathPre_of_le {a c : Path} (h : pathPre a c) : ¬ pathPre c a ∨ a = c := by
  by_cases hc : pathPre c a
  · right
    exact pathPre_uniq h (pathPre_refl c) (Nat.le_antisymm (pathPre_len h) (pathPre_len hc))
  · left; exact hc

theorem pathPre_cons {i j : Nat} {a q : Path} :
    pathPre (i :: a) (j :: q) ↔ j = i ∧ pathPre a q := by
  simp [pathPre, List.take_succ_cons, List.cons_eq_cons]

theorem pathPre_snoc_inj {p : Path} {j k : Nat} (h : pathPre (p ++ [j]) (p ++ [k])) :
    j = k := by
  have := pathPre_uniq h (pathPre_refl (p ++ [k])) (by simp)
  have := List.append_inj_right this (rfl : p.length = p.length)
  simpa using this

theorem pathPre_ext {c q : Path} (h : pathPre c q) (hl : c.length < q.length) :
    ∃ x, pathPre (c ++ [x]) q := by
  have hq : c ++ q.drop c.length = q := by
    conv_rhs => rw [← List.take_append_drop c.length q]
    rw [h]
  cases hdrop : q.drop c.length with
  | nil =>
    exfalso
    have := congrArg List.length hdrop
    simp at this
    omega
  | cons x rest =>
    refine ⟨x, ?_⟩
    show q.take (c ++ [x]).length = c ++ [x]
    rw [← hq, hdrop]
    simp [List.take_append_eq_append_take]

theorem getNode?_append (t : HC) (a b : Path) :
    getNode? t (a ++ b) = (getNode? t a).bind (fun n => getNode? n b) := by
  induction a generalizing t with
  | nil => simp [getNode?]
  | cons i rest ih =>
    cases t with
    | mk d cs =>
      show getNode? (HC.mk d cs) (i :: (rest ++ b)) = _
      rw [getNode?_cons, getNode?_cons]
      cases hgi : cs.get? i with
      | none => rfl
      | some c => exact ih c

theorem validPath_iff_data (t : HC) (q : Path) :
    validPath t q = true ↔ (dataAt? t q).isSome = true := by
  unfold validPath dataAt?
  cases getNode? t q <;> simp

theorem validPath_pathPre {t : HC} {a q : Path} (hv : validPath t q = true)
    (h : pathPre a q) : validPath t a = true := by
  unfold validPath at *
  have hq : a ++ q.drop a.length = q := by
    conv_rhs => rw [← List.take_append_drop a.length q]
    rw [h]
  rw [← hq, getNode?_append] at hv
  cases hg : getNode? t a with
  | none => rw [hg] at hv; simp at hv
  | some n => simp

theorem validPath_snoc {t : HC} {p : Path} {j : Nat}
    (hv : validPath t (p ++ [j]) = true) : j < childCount t p := by
  unfold validPath at hv
  rw [getNode?_append] at hv
  cases hg : getNode? t p with
  | none => rw [hg] at hv; simp at hv
  | some n =>
    rw [hg] at hv
    cases n with
    | mk d cs =>
      rw [Option.some_bind, getNode?_cons] at hv
      unfold childCount
      rw [hg]
      cases hgc : cs.get? j with
      | none => rw [hgc] at hv; simp at hv
      | some c =>
        have := List.get?_eq_some.mp hgc
        simpa using this.1

theorem childData_get? (t : HC) (q : Path) (k : Nat) :
    (childData t q).get? k = dataAt? t (q ++ [k]) := by
  unfold childData dataAt?
  rw [getNode?_append]
  cases getNode? t q with
  | none => simp [getNode?]
  | some n =>
    cases n with
    | mk d cs =>
      show (List.map HC.data cs).get? k = Option.map HC.data (getNode? (HC.mk d cs) [k])
      rw [getNode?_cons]
      cases hgc : cs.get? k with
      | none =>
        have hk : cs.length ≤ k := List.get?_eq_none.mp hgc
        simp [List.get?_eq_none, hk]
      | some c =>
        rw [List.get?_map, hgc]
        rfl

theorem childData_ext {t1 t2 : HC} {q : Path}
    (h : ∀ k, dataAt? t1 (q ++ [k]) = dataAt? t2 (q ++ [k])) :
    childData t1 q = childData t2 q := by
  apply List.ext
  intro k
  rw [childData_get?, childData_get?, h]

theorem modifyAt_dataAt {f : HC → HC} (hf : ∀ n, (f n).data = n.data) :
    ∀ (c : Path) (t : HC) (q : Path), (¬ pathPre c q ∨ q = c) →
    dataAt? (modifyAt t c f) q = dataAt? t q := by
  intro c
  induction c with
  | nil =>
    intro t q h
    rcases h with h | h
    · exact absurd (by simp [pathPre]) h
    · subst h
      cases t with
      | mk d cs =>
        show some (f (HC.mk d cs)).data = some (HC.mk d cs).data
        rw [hf (HC.mk d cs)]
  | cons i cr ih =>
    intro t q h
    cases t with
    | mk d cs =>
      show dataAt? (HC.mk d (modifyIdx (fun x => modifyAt x cr f) i cs)) q
        = dataAt? (HC.mk d cs) q
      cases q with
      | nil => rfl
      | cons j qr =>
        unfold dataAt?
        rw [getNode?_cons, getNode?_cons, modifyIdx_get?]
        by_cases hj : j = i
        · subst hj
          rw [if_pos rfl]
          cases hx : cs.get? j with
          | none => rfl
          | some x =>
            show dataAt? (modifyAt x cr f) qr = dataAt? x qr
            apply ih
            rcases h with h | h
            · left
              intro hp
              exact h (pathPre_cons.mpr ⟨rfl, hp⟩)
            · right
              exact (List.cons_eq_cons.mp h).2
        · rw [if_neg hj]

theorem getNode?_modifyAt (f : HC → HC) : ∀ (c : Path) (t : HC),
    getNode? (modifyAt t c f) c = (getNode? t c).map f := by
  intro c
  induction c with
  | nil =>
    intro t
    cases t with
    | mk d cs => rfl
  | cons i cr ih =>
    intro t
    cases t with
    | mk d cs =>
      show getNode? (HC.mk d (modifyIdx (fun x => modifyAt x cr f) i cs)) (i :: cr)
        = (getNode? (HC.mk d cs) (i :: cr)).map f
      rw [getNode?_cons, getNode?_cons, modifyIdx_get?, if_pos rfl]
      cases hx : cs.get? i with
      | none => rfl
      | some x =>
        show getNode? (modifyAt x cr f) cr = (getNode? x cr).map f
        exact ih x

theorem applyExitRule_dataAt (t : HC) (c : Path) (r : ExitRule) {q : Path}
    (h : ¬ pathPre c q ∨ q = c) :
    dataAt? (applyExitRule t c r) q = dataAt? t q := by
  unfold applyExitRule
  cases h1 : lineage_test t c r.lineage false with
  | false => rfl
  | true =>
    rw [if_pos rfl]
    unfold addChildAt
    rw [@modifyAt_dataAt (fun node => HC.mk node.data (node.children ++ [exitChild r.exit_text]))
      (fun n => rfl) c _ q h]
    cases h2 : hasChildText t c r.exit_text with
    | false => rfl
    | true =>
      rw [if_pos rfl]
      unfold delChildrenByText
      exact @modifyAt_dataAt
        (fun n => HC.mk n.data (n.children.filter (fun ch => !(ch.data.text == r.exit_text))))
        (fun n => rfl) c t q h

theorem exitTurn_dataAt (rules : List ExitRule) (t : HC) (c : Path) {q : Path}
    (h : ¬ pathPre c q ∨ q = c) :
    dataAt? (exitTurn rules t c) q = dataAt? t q := by
  unfold exitTurn
  induction rules generalizing t with
  | nil => rfl
  | cons r rest ih =>
    rw [List.foldl_cons, ih (applyExitRule t c r), applyExitRule_dataAt t c r h]

theorem validPath_eq_data (t : HC) (q : Path) :
    validPath t q = (dataAt? t q).isSome := by
  unfold validPath dataAt?
  cases getNode? t q <;> rfl

theorem exitTurn_valid (rules : List ExitRule) (t : HC) (c : Path) :
    validPath (exitTurn rules t c) c = validPath t c := by
  rw [validPath_eq_data, validPath_eq_data, exitTurn_dataAt rules t c (Or.inr rfl)]

theorem textAt_eq_data (t : HC) (p : Path) :
    textAt t p = ((dataAt? t p).map NodeData.text).getD "" := by
  unfold textAt dataAt?
  cases getNode? t p <;> rfl

theorem lineagePaths_pathPre {a q : Path} (h : a ∈ lineagePaths q) : pathPre a q := by
  unfold lineagePaths at h
  obtain ⟨i, hi, rfl⟩ := List.mem_map.mp h
  have hi' : i < q.length := List.mem_range.mp hi
  show q.take (q.take (i + 1)).length = q.take (i + 1)
  rw [List.length_take]
  congr 1
  omega

theorem lineage_test_congr {t1 t2 : HC} {q : Path}
    (h : ∀ a, pathPre a q → dataAt? t1 a = dataAt? t2 a) (rule : LineageRule) (s : Bool) :
    lineage_test t1 q rule s = lineage_test t2 q rule s := by
  unfold lineage_test
  have hmap : (lineagePaths q).map (fun a => textAt t1 a)
      = (lineagePaths q).map (fun a => textAt t2 a) := by
    apply List.map_congr_left
    intro a ha
    rw [textAt_eq_data, textAt_eq_data, h a (lineagePaths_pathPre ha)]
  rw [hmap]

theorem map_data_filter (p : NodeData → Bool) : ∀ (l : List HC),
    (l.filter (fun ch => p ch.data)).map HC.data = (l.map HC.data).filter p := by
  intro l
  induction l with
  | nil => rfl
  | cons x xs ih =>
    rw [List.filter_cons, List.map_cons, List.filter_cons]
    cases hpx : p x.data <;> simp [hpx, ih]

theorem any_map_data (p : NodeData → Bool) : ∀ (l : List HC),
    (l.map HC.data).any p = l.any (fun ch => p ch.data) := by
  intro l
  induction l with
  | nil => rfl
  | cons x xs ih => simp [List.any_cons, ih]

theorem hasChildText_eq (t : HC) (c : Path) (e : String) :
    hasChildText t c e = (childData t c).any (fun d => d.text == e) := by
  unfold hasChildText childData
  cases getNode? t c with
  | none => rfl
  | some n =>
    show n.children.any (fun ch => ch.data.text == e)
      = (n.children.map HC.data).any (fun d => d.text == e)
    rw [any_map_data]

theorem childData_addChildAt {t : HC} {c : Path} {n : HC}
    (hn : getNode? t c = some n) (x : HC) :
    childData (addChildAt t c x) c = childData t c ++ [x.data] := by
  unfold childData addChildAt
  rw [getNode?_modifyAt, hn]
  show (n.children ++ [x]).map HC.data = n.children.map HC.data ++ [x.data]
  simp

theorem childData_delChildrenByText (t : HC) (c : Path) (e : String) :
    childData (delChildrenByText t c e) c
      = (childData t c).filter (fun d => !(d.text == e)) := by
  unfold childData delChildrenByText
  rw [getNode?_modifyAt]
  cases getNode? t c with
  | none => rfl
  | some n =>
    show (n.children.filter (fun ch => !(ch.data.text == e))).map HC.data
      = (n.children.map HC.data).filter (fun d => !(d.text == e))
    exact map_data_filter (fun d => !(d.text == e)) n.children

theorem applyExitRule_childData (t : HC) (c : Path) (r : ExitRule)
    (hv : validPath t c = true) (h1 : lineage_test t c r.lineage false = true) :
    childData (applyExitRule t c r) c =
      (if hasChildText t c r.exit_text then
        (childData t c).filter (fun d => !(d.text == r.exit_text))
      else childData t c) ++ [(exitChild r.exit_text).data] := by
  obtain ⟨n, hn⟩ := Option.isSome_iff_exists.mp hv
  unfold applyExitRule
  rw [if_pos h1]
  cases h2 : hasChildText t c r.exit_text with
  | false =>
    rw [if_neg Bool.false_ne_true, if_neg Bool.false_ne_true]
    exact childData_addChildAt hn (exitChild r.exit_text)
  | true =>
    rw [if_pos rfl, if_pos rfl]
    have hn' : getNode? (delChildrenByText t c r.exit_text) c
        = some (HC.mk n.data (n.children.filter (fun ch => !(ch.data.text == r.exit_text)))) := by
      unfold delChildrenByText
      rw [getNode?_modifyAt, hn]
      rfl
    rw [childData_addChildAt hn' (exitChild r.exit_text), childData_delChildrenByText]

theorem exitOkD_establish (ds : List NodeData) (e : String)
    (h : ∀ d ∈ ds, (d.text == e) = false) :
    exitOkD (ds ++ [(exitChild e).data]) e := by
  constructor
  · rw [List.filter_append]
    have h1 : ds.filter (fun d => d.text == e) = [] := by
      rw [List.filter_eq_nil]
      intro d hd
      simp [h d hd]
    rw [h1]
    simp [exitChild, defaultData, HC.data]
  · intro d hd he
    rcases List.mem_append.mp hd with hd | hd
    · have hcontra := h d hd
      rw [he] at hcontra
      simp at hcontra
    · have hde : d = (exitChild e).data := by simpa using hd
      rw [hde]
      rfl

theorem exitSingleton_filter_nil (e e' : String) (hne : e ≠ e') :
    List.filter (fun d => d.text == e') [(exitChild e).data] = [] := by
  simp [exitChild, defaultData, HC.data, hne]

theorem exitOkD_preserve (ds : List NodeData) (e e' : String) (hne : e ≠ e')
    (h : exitOkD ds e') :
    exitOkD ((ds.filter (fun d => !(d.text == e))) ++ [(exitChild e).data]) e' := by
  obtain ⟨hc, hw⟩ := h
  constructor
  · rw [List.filter_append, exitSingleton_filter_nil e e' hne, List.append_nil,
      List.filter_filter, ← hc]
    apply congrArg List.length
    apply List.filter_congr
    intro d _
    cases hb : d.text == e' with
    | false => simp [hb]
    | true =>
      have hde : d.text = e' := by simpa using hb
      have hne' : (d.text == e) = false := by
        rw [hde]
        simpa using fun heq => hne heq.symm
      simp [hb, hne']
  · intro d hd he'
    rcases List.mem_append.mp hd with hd | hd
    · exact hw d (List.mem_of_mem_filter hd) he'
    · have hde : d = (exitChild e).data := by simpa using hd
      rw [hde] at he'
      exact absurd he' (by simpa [exitChild, defaultData, HC.data] using hne)

theorem exitOkD_preserve_nodel (ds : List NodeData) (e e' : String) (hne : e ≠ e')
    (h : exitOkD ds e') : exitOkD (ds ++ [(exitChild e).data]) e' := by
  obtain ⟨hc, hw⟩ := h
  constructor
  · rw [List.filter_append, exitSingleton_filter_nil e e' hne, List.append_nil, hc]
  · intro d hd he'
    rcases List.mem_append.mp hd with hd | hd
    · exact hw d hd he'
    · have hde : d = (exitChild e).data := by simpa using hd
      rw [hde] at he'
      exact absurd he' (by simpa [exitChild, defaultData, HC.data] using hne)

theorem applyExitRule_post (t : HC) (c : Path) (r : ExitRule)
    (hv : validPath t c = true) (h1 : lineage_test t c r.lineage false = true) :
    exitOkD (childData (applyExitRule t c r) c) r.exit_text := by
  rw [applyExitRule_childData t c r hv h1]
  cases h2 : hasChildText t c r.exit_text with
  | true =>
    rw [if_pos rfl]
    apply exitOkD_establish
    intro d hd
    have := List.of_mem_filter hd
    simpa using this
  | false =>
    rw [if_neg Bool.false_ne_true]
    apply exitOkD_establish
    intro d hd
    rw [hasChildText_eq] at h2
    have h3 := List.any_eq_false.mp h2 d hd
    simpa using h3

theorem applyExitRule_preserve (t : HC) (c : Path) (r : ExitRule) (e' : String)
    (hv : validPath t c = true) (h : exitOkD (childData t c) e') :
    exitOkD (childData (applyExitRule t c r) c) e' := by
  cases h1 : lineage_test t c r.lineage false with
  | false =>
    have hid : applyExitRule t c r = t := by
      simp [applyExitRule, h1]
    rw [hid]
    exact h
  | true =>
    by_cases he : r.exit_text = e'
    · subst he
      exact applyExitRule_post t c r hv h1
    · rw [applyExitRule_childData t c r hv h1]
      cases h2 : hasChildText t c r.exit_text with
      | true => rw [if_pos rfl]; exact exitOkD_preserve _ _ _ he h
      | false => rw [if_neg Bool.false_ne_true]; exact exitOkD_preserve_nodel _ _ _ he h

theorem applyExitRule_valid (t : HC) (c : Path) (r : ExitRule) (q : Path)
    (h : ¬ pathPre c q ∨ q = c) :
    validPath (applyExitRule t c r) q = validPath t q := by
  rw [validPath_eq_data, validPath_eq_data, applyExitRule_dataAt t c r h]

theorem exitTurn_post (rules : List ExitRule) (c : Path) :
    ∀ (t : HC) (E : List String),
    validPath t c = true →
    (∀ e ∈ E, exitOkD (childData t c) e) →
    (∀ e ∈ E, exitOkD (childData (exitTurn rules t c) c) e) ∧
    (∀ r ∈ rules, lineage_test t c r.lineage false = true →
      exitOkD (childData (exitTurn rules t c) c) r.exit_text) := by
  induction rules with
  | nil =>
    intro t E hv hE
    exact ⟨fun e he => hE e he, fun r hr => absurd hr (List.not_mem_nil r)⟩
  | cons r rest ih =>
    intro t E hv hE
    have hstep : exitTurn (r :: rest) t c = exitTurn rest (applyExitRule t c r) c := by
      unfold exitTurn
      rw [List.foldl_cons]
    have hv1 : validPath (applyExitRule t c r) c = true := by
      rw [applyExitRule_valid t c r c (Or.inr rfl)]
      exact hv
    have htest : ∀ rule s, lineage_test (applyExitRule t c r) c rule s
        = lineage_test t c rule s :=
      fun rule s =>
        lineage_test_congr (fun a ha => applyExitRule_dataAt t c r (pathPre_of_le ha)) rule s
    cases h1 : lineage_test t c r.lineage false with
    | true =>
      have hpost : exitOkD (childData (applyExitRule t c r) c) r.exit_text :=
        applyExitRule_post t c r hv h1
      have hprev : ∀ e ∈ (r.exit_text :: E), exitOkD (childData (applyExitRule t c r) c) e := by
        intro e he
        rcases List.mem_cons.mp he with rfl | heE
        · exact hpost
        · exact applyExitRule_preserve t c r e hv (hE e heE)
      obtain ⟨ha, hb⟩ := ih (applyExitRule t c r) (r.exit_text :: E) hv1 hprev
      rw [hstep]
      constructor
      · intro e he
        exact ha e (List.mem_cons_of_mem _ he)
      · intro r' hr' ht'
        rcases List.mem_cons.mp hr' with rfl | hr'mem
        · exact ha r'.exit_text (List.mem_cons_self _ _)
        · exact hb r' hr'mem (by rw [htest]; exact ht')
    | false =>
      have hid : applyExitRule t c r = t := by
        simp [applyExitRule, h1]
      obtain ⟨ha, hb⟩ := ih t E hv hE
      rw [hstep, hid]
      constructor
      · exact ha
      · intro r' hr' ht'
        rcases List.mem_cons.mp hr' with rfl | hr'mem
        · exact absurd ht' (by simp [h1])
        · exact hb r' hr'mem ht'

theorem visitFrame_succ (rules : List ExitRule) (fuel : Nat) (t : HC) (p : Path) (i : Nat) :
    visitFrame rules (fuel + 1) t p i =
      if i < childCount t p then
        match visitFrame rules fuel (exitTurn rules t (p ++ [i])) (p ++ [i]) 0 with
        | none => none
        | some t2 => visitFrame rules fuel t2 p (i + 1)
      else some t := rfl

theorem validPath_snoc_of_lt {t : HC} {p : Path} {i : Nat} (h : i < childCount t p) :
    validPath t (p ++ [i]) = true := by
  unfold validPath
  rw [getNode?_append]
  unfold childCount at h
  cases hg : getNode? t p with
  | none => rw [hg] at h; simp at h
  | some n =>
    rw [hg] at h
    simp at h
    rw [Option.some_bind]
    cases n with
    | mk d cs =>
      rw [getNode?_cons]
      cases hgc : cs.get? i with
      | none =>
        have h2 := List.get?_eq_none.mp hgc
        have h3 : i < cs.length := by simpa [HC.children] using h
        omega
      | some c => rfl

theorem visitFrame_spec (rules : List ExitRule) :
    ∀ (fuel : Nat) (t : HC) (p : Path) (i : Nat) (t' : HC),
    visitFrame rules fuel t p i = some t' →
    ((∀ q, (∀ j, i ≤ j → ¬ pathPre (p ++ [j]) q) → dataAt? t' q = dataAt? t q) ∧
     (∀ k, dataAt? t' (p ++ [k]) = dataAt? t (p ++ [k])) ∧
     (∀ q, Reg p i q → validPath t' q = true →
       ∀ r ∈ rules, lineage_test t' q r.lineage false = true →
         exitOkD (childData t' q) r.exit_text)) := by
  intro fuel
  induction fuel with
  | zero =>
    intro t p i t' h
    exact Option.noConfusion h
  | succ fuel ih =>
    intro t p i t' h
    rw [visitFrame_succ] at h
    by_cases hc : i < childCount t p
    case neg =>
      rw [if_neg hc] at h
      have ht : t = t' := by injection h
      subst ht
      refine ⟨fun q _ => rfl, fun k => rfl, ?_⟩
      intro q hreg hvq r _ _
      exfalso
      obtain ⟨j, hij, hpre⟩ := hreg
      have hvj : validPath t (p ++ [j]) = true := validPath_pathPre hvq hpre
      have := validPath_snoc hvj
      omega
    case pos =>
      rw [if_pos hc] at h
      cases h2 : visitFrame rules fuel (exitTurn rules t (p ++ [i])) (p ++ [i]) 0 with
      | none => rw [h2] at h; exact Option.noConfusion h
      | some t2 =>
        rw [h2] at h
        obtain ⟨B1, C1, G1⟩ := ih (exitTurn rules t (p ++ [i])) (p ++ [i]) 0 t2 h2
        obtain ⟨B2, C2, G2⟩ := ih t2 p (i + 1) t' h
        have hshort : ∀ a : Path, a.length ≤ p.length + 1 →
            ∀ j : Nat, ¬ pathPre ((p ++ [i]) ++ [j]) a := by
          intro a ha j hpre
          have := pathPre_len hpre
          simp at this
          omega
        refine ⟨?_, ?_, ?_⟩
        · -- data preserved outside the region
          intro q hq
          have hnc : ¬ pathPre (p ++ [i]) q := hq i (Nat.le_refl i)
          rw [B2 q (fun j hj => hq j (by omega)),
              B1 q (fun j _ hpre =>
                hnc (pathPre_trans (pathPre_append (p ++ [i]) [j]) hpre)),
              exitTurn_dataAt rules t (p ++ [i]) (Or.inl hnc)]
        · -- children of p keep their payloads
          intro k
          rw [C2 k]
          by_cases hk : k = i
          · subst hk
            rw [B1 (p ++ [k]) (fun j _ => hshort (p ++ [k]) (by simp) j)]
            exact exitTurn_dataAt rules t (p ++ [k]) (Or.inr rfl)
          · rw [B1 (p ++ [k]) (fun j _ => hshort (p ++ [k]) (by simp) j)]
            exact exitTurn_dataAt rules t (p ++ [i])
              (Or.inl (fun hpre => hk (pathPre_snoc_inj hpre).symm))
        · -- the goal on the region
          intro q hreg hvq r hr htest
          obtain ⟨j, hij, hpre⟩ := hreg
          by_cases hj : i + 1 ≤ j
          · exact G2 q ⟨j, hj, hpre⟩ hvq r hr htest
          · have hji : j = i := by omega
            subst hji
            have hqpref : ∀ a, pathPre a q → ∀ j', j + 1 ≤ j' → ¬ pathPre (p ++ [j']) a := by
              intro a haq j' hj' hpa
              have h1 : pathPre (p ++ [j']) q := pathPre_trans hpa haq
              have h2 : p ++ [j'] = p ++ [j] := pathPre_uniq h1 hpre (by simp)
              have h3 : j' = j := by
                have := List.append_inj_right h2 rfl
                simpa using this
              omega
            have hdq : ∀ a, pathPre a q → dataAt? t' a = dataAt? t2 a :=
              fun a haq => B2 a (hqpref a haq)
            have hdqk : ∀ k, dataAt? t' (q ++ [k]) = dataAt? t2 (q ++ [k]) := by
              intro k
              apply B2
              intro j' hj' hpa
              have h1 : pathPre (p ++ [j]) (q ++ [k]) :=
                pathPre_trans hpre (pathPre_append q [k])
              have h2 : p ++ [j'] = p ++ [j] := pathPre_uniq hpa h1 (by simp)
              have h3 : j' = j := by
                have := List.append_inj_right h2 rfl
                simpa using this
              omega
            have hchild : childData t' q = childData t2 q := childData_ext (fun k => hdqk k)
            have hvq2 : validPath t2 q = true := by
              rw [validPath_eq_data] at hvq ⊢
              rw [← hdq q (pathPre_refl q)]
              exact hvq
            have htest2 : lineage_test t2 q r.lineage false = true := by
              rw [← lineage_test_congr hdq r.lineage false]
              exact htest
            rw [hchild]
            by_cases hqc : q = p ++ [j]
            · subst hqc
              have hchild1 : childData t2 (p ++ [j])
                  = childData (exitTurn rules t (p ++ [j])) (p ++ [j]) :=
                childData_ext (fun k => C1 k)
              have hvt : validPath t (p ++ [j]) = true := validPath_snoc_of_lt hc
              have hd21 : ∀ a, pathPre a (p ++ [j]) →
                  dataAt? t2 a = dataAt? (exitTurn rules t (p ++ [j])) a :=
                fun a ha =>
                  B1 a (fun j' _ => hshort a (by simpa using pathPre_len ha) j')
              have hd10 : ∀ a, pathPre a (p ++ [j]) →
                  dataAt? (exitTurn rules t (p ++ [j])) a = dataAt? t a :=
                fun a ha => exitTurn_dataAt rules t (p ++ [j]) (pathPre_of_le ha)
              have htestt : lineage_test t (p ++ [j]) r.lineage false = true := by
                have e1 := lineage_test_congr hd21 r.lineage false
                have e2 := lineage_test_congr hd10 r.lineage false
                rw [← e2, ← e1]
                exact htest2
              have hpost := (exitTurn_post rules (p ++ [j]) t [] hvt
                (fun e he => absurd he (List.not_mem_nil e))).2 r hr htestt
              rw [hchild1]
              exact hpost
            · have hlen : (p ++ [j]).length < q.length := by
                have h1 := pathPre_len hpre
                rcases Nat.lt_or_ge (p ++ [j]).length q.length with hlt | hge
                · exact hlt
                · exfalso
                  exact hqc (pathPre_uniq (pathPre_refl q) hpre (by omega))
              obtain ⟨x, hx⟩ := pathPre_ext hpre hlen
              exact G1 q ⟨x, Nat.zero_le x, hx⟩ hvq2 r hr htest2

/-- C6: `add_sectional_exiting` is idempotent: after a run, every non-root node
matching a sectional-exiting rule has exactly one direct child whose text is
the rule's `exit_text`, carrying order weight 999; and after invoking it a
second time in succession each matching node still has exactly one such child,
not two. -/
theorem add_sectional_exiting_idempotent (rules : List ExitRule)
    (fuelA fuelB : Nat) (t tA tB : HC)
    (hA : add_sectional_exiting rules fuelA t = some tA)
    (hB : add_sectional_exiting rules fuelB tA = some tB) :
    (∀ q, q ≠ [] → validPath tA q = true →
      ∀ r ∈ rules, lineage_test tA q r.lineage false = true → exitOk tA q r.exit_text) ∧
    (∀ q, q ≠ [] → validPath tB q = true →
      ∀ r ∈ rules, lineage_test tB q r.lineage false = true → exitOk tB q r.exit_text) := by
  have main : ∀ (fuel : Nat) (s s' : HC), add_sectional_exiting rules fuel s = some s' →
      ∀ q, q ≠ [] → validPath s' q = true →
        ∀ r ∈ rules, lineage_test s' q r.lineage false = true → exitOk s' q r.exit_text := by
    intro fuel s s' h q hq hv r hr ht
    have spec := (visitFrame_spec rules fuel s [] 0 s' h).2.2
    apply spec q ?_ hv r hr ht
    cases q with
    | nil => exact absurd rfl hq
    | cons x rest => exact ⟨x, Nat.zero_le x, by simp [pathPre]⟩
  exact ⟨main fuelA t tA hA, main fuelB tA tB hB⟩

/-- Witness for C6: on the two-interface example, one run creates the single
`exit` child under the interface and a second run leaves it untouched; applying
the theorem at this input gives the exactly-one-exit-child property after the
second run. -/
theorem add_sectional_exiting_idempotent_witness :
    add_sectional_exiting [sectionalExampleRule] 6 sectionalExampleTree
        = some sectionalExampleOnce ∧
    add_sectional_exiting [sectionalExampleRule] 6 sectionalExampleOnce
        = some sectionalExampleOnce ∧
    exitOk sectionalExampleOnce [0] "exit" := by
  refine ⟨rfl, rfl, ?_⟩
  exact (add_sectional_exiting_idempotent [sectionalExampleRule] 6 6
      sectionalExampleTree sectionalExampleOnce sectionalExampleOnce rfl rfl).2
    [0] (by decide) (by rfl) sectionalExampleRule (List.mem_singleton.mpr rfl) (by rfl)

end HierCfg
